import Mathlib

/-!
# Verification of the rustasata CDCL SAT solver against its specification

Shallow embedding of the solver sources (src/literal.rs, src/clause.rs,
src/decision_provider.rs, src/solver.rs) as executable Lean definitions,
followed by theorems settling the specification claims.

Machine integers: the solver stores literals as i64 and indices as usize.
All values reaching these operations come from DIMACS parsing of variable
identifiers, so their magnitudes stay far below 2^63 and no wrapping can
occur; we model i64 as Int and usize as Nat.
-/

namespace Rustasata

/-- A literal, as in src/literal.rs: a nonzero signed integer
(variable identifier with a sign). -/
structure Literal where
  val : Int
  deriving DecidableEq, Repr

/-- Literal negation (impl Not for Literal). -/
def Literal.neg (l : Literal) : Literal := ⟨-l.val⟩

/-- Literal::sign: true iff the underlying integer is positive. -/
def Literal.sign (l : Literal) : Bool := 0 < l.val

/-- Literal::var: the absolute value of the underlying integer. -/
def Literal.var (l : Literal) : Nat := l.val.natAbs

/-- Literal::index, from src/literal.rs lines 27-33:
positive literals map to 2*value, negative ones to 2*|value| - 1. -/
def Literal.index (l : Literal) : Nat :=
  if l.sign then l.val.toNat * 2 else l.val.natAbs * 2 - 1

/-- Literal::falsified_by: a literal is falsified by an assigned value
that differs from its sign; an unassigned variable falsifies nothing. -/
def Literal.falsified_by (l : Literal) (var_val : Option Bool) : Bool :=
  match var_val with
  | none => false
  | some val => val != l.sign

/-- Literal::satisfied_by: a literal is satisfied by an assigned value
equal to its sign. -/
def Literal.satisfied_by (l : Literal) (var_val : Option Bool) : Bool :=
  match var_val with
  | none => false
  | some val => val == l.sign

end Rustasata

namespace Rustasata

/-- C8 counterexample: the claim states that the dense index of every
literal equals 2*var + sign_bit for a sign bit in {0,1}.  The code maps
a negative literal to 2*var - 1, which is strictly below 2*var, so no
choice of a sign bit in {0,1} matches: at the literal -1 the index is 1
while the claim requires 2 or 3. -/
theorem literal_index_claim_false_at_neg_one :
    Literal.index ⟨-1⟩ = 1 ∧
    Literal.index ⟨-1⟩ ≠ 2 * Literal.var ⟨-1⟩ + 0 ∧
    Literal.index ⟨-1⟩ ≠ 2 * Literal.var ⟨-1⟩ + 1 := by
  decide

/-- C8 (amended): for every literal over a variable v ≥ 1 (nonzero
signed integer), the dense index used to key the watch index equals
2*var for a positive literal and 2*var - 1 for a negative one. -/
theorem literal_index_eq (l : Literal) (h : l.val ≠ 0) :
    Literal.index l = if l.sign then 2 * l.var else 2 * l.var - 1 := by
  simp only [Literal.index, Literal.sign, Literal.var]
  by_cases hp : (0 : Int) < l.val
  · simp only [hp, decide_True, if_true]
    omega
  · simp [hp]
    omega

/-- C8 witness: evaluating the amended statement at literal 7. -/
theorem literal_index_eq_witness :
    Literal.index ⟨7⟩ = if Literal.sign ⟨7⟩ then 2 * Literal.var ⟨7⟩
      else 2 * Literal.var ⟨7⟩ - 1 :=
  literal_index_eq ⟨7⟩ (by decide)

/-- C10: Literal::index is injective on literals with a nonzero value:
two distinct such literals (including a literal and its negation) have
distinct indices, so no two distinct literals share a watch list. -/
theorem literal_index_injective (a b : Literal)
    (ha : a.val ≠ 0) (hb : b.val ≠ 0)
    (h : Literal.index a = Literal.index b) : a = b := by
  cases a with
  | mk av =>
    cases b with
    | mk bv =>
      simp only [Literal.index, Literal.sign, Literal.var] at h
      simp only [ne_eq, Literal.mk.injEq] at ha hb ⊢
      by_cases hpa : (0 : Int) < av <;> by_cases hpb : (0 : Int) < bv <;>
        simp [hpa, hpb] at h <;> omega

/-- C10 witness: the injectivity theorem applied at the concrete pair
of literals with value 3 (indices: literal 3 has index 6). -/
theorem literal_index_injective_witness :
    (⟨3⟩ : Literal).val ≠ 0 ∧ (⟨3⟩ : Literal) = ⟨3⟩ :=
  ⟨by decide, literal_index_injective ⟨3⟩ ⟨3⟩ (by decide) (by decide) (by decide)⟩

end Rustasata

namespace Rustasata

/-- Rust Vec::dedup: remove consecutive duplicate elements, keeping the
first element of each run. -/
def dedupAdjacent {α : Type} [DecidableEq α] : List α → List α
  | [] => []
  | [a] => [a]
  | a :: b :: rest =>
      if a = b then dedupAdjacent (b :: rest) else a :: dedupAdjacent (b :: rest)

/-- The order in which Rust sorts a Vec<Literal>: Literal derives Ord on
its i64 payload. -/
def litLe (a b : Literal) : Prop := a.val ≤ b.val

instance : DecidableRel litLe :=
  fun a b => inferInstanceAs (Decidable (a.val ≤ b.val))

instance : IsTotal Literal litLe := ⟨fun a b => Int.le_total a.val b.val⟩

instance : IsTrans Literal litLe := ⟨fun _ _ _ h1 h2 => le_trans h1 h2⟩

/-- A clause, as in src/clause.rs: two watched slot positions and the
literal vector. -/
structure Clause where
  watched : Nat × Nat
  literals : List Literal
  deriving DecidableEq, Repr

/-- Clause::new, from src/clause.rs lines 37-44: sort the incoming i64s
ascending, remove consecutive duplicates, watch positions (0, 1) when
more than one literal remains and (0, 0) otherwise.  Rust sort_unstable
sorts by the total order on i64; since the sorted permutation of a list
is unique, any sorting algorithm computes it, and we use insertion sort
so that the definition reduces inside the kernel. -/
def Clause.new (nums : List Int) : Clause :=
  let sorted := dedupAdjacent (List.insertionSort (· ≤ ·) nums)
  { watched := (0, if sorted.length > 1 then 1 else 0),
    literals := sorted.map Literal.mk }

/-- Clause::watched_literals: the literals at the two watched positions.
Rust indexing panics when a watched position is out of bounds; every
clause the solver builds is nonempty with in-bounds watched positions,
so we use a default literal for the impossible case. -/
def Clause.watched_literals (c : Clause) : Literal × Literal :=
  (c.literals.getD c.watched.1 ⟨0⟩, c.literals.getD c.watched.2 ⟨0⟩)

/-- Clause::resolution, from src/clause.rs lines 71-84: collect the i64
values of the literals of self and of other whose value differs from the
given literal value, then rebuild through Clause::new. -/
def Clause.resolution (self other : Clause) (literal : Literal) : Clause :=
  Clause.new
    ((self.literals.filter fun x => x.val ≠ literal.val).map Literal.val
      ++ (other.literals.filter fun x => x.val ≠ literal.val).map Literal.val)

/-- Solver::resolve, from src/solver.rs lines 329-338: drop from alits
every literal over the pivot variable, append the literals of blits not
over the pivot variable, sort and remove consecutive duplicates. -/
def Solver.resolve (alits blits : List Literal) (literal : Literal) : List Literal :=
  dedupAdjacent (List.insertionSort litLe
    ((alits.filter fun l => l.var ≠ literal.var)
      ++ blits.filter fun x => x.var ≠ literal.var))

theorem mem_dedupAdjacent {α : Type} [DecidableEq α] (a : α) :
    ∀ (l : List α), a ∈ dedupAdjacent l ↔ a ∈ l
  | [] => by simp [dedupAdjacent]
  | [b] => by simp [dedupAdjacent]
  | b :: c :: rest => by
      have ih := mem_dedupAdjacent a (c :: rest)
      by_cases h : b = c
      · subst h
        have hd : dedupAdjacent (b :: b :: rest) = dedupAdjacent (b :: rest) := by
          simp [dedupAdjacent]
        rw [hd, ih]
        simp only [List.mem_cons]
        tauto
      · simp only [dedupAdjacent, if_neg h, List.mem_cons, ih]

theorem dedupAdjacent_pairwise {α : Type} [DecidableEq α] {le : α → α → Prop}
    (hanti : ∀ a b, le a b → le b a → a = b) :
    ∀ {l : List α}, l.Pairwise le →
      (dedupAdjacent l).Pairwise (fun x y => le x y ∧ x ≠ y)
  | [], _ => by simp [dedupAdjacent]
  | [a], _ => by simp [dedupAdjacent]
  | a :: b :: rest, hp => by
      rw [List.pairwise_cons] at hp
      obtain ⟨ha, hp⟩ := hp
      have ih := dedupAdjacent_pairwise hanti hp
      by_cases h : a = b
      · simpa [dedupAdjacent, if_pos h] using ih
      · rw [show dedupAdjacent (a :: b :: rest)
            = a :: dedupAdjacent (b :: rest) by simp [dedupAdjacent, h]]
        rw [List.pairwise_cons]
        refine ⟨fun x hx => ?_, ih⟩
        have hxmem : x ∈ b :: rest := (mem_dedupAdjacent x (b :: rest)).mp hx
        refine ⟨ha x hxmem, fun hax => ?_⟩
        rcases List.mem_cons.mp hxmem with hxb | hxr
        · exact h (hax.trans hxb)
        · have hbx : le b x := (List.pairwise_cons.mp hp).1 x hxr
          have hab : le a b := ha b (List.mem_cons_self b rest)
          have hba : le b a := by rw [hax]; exact hbx
          exact h (hanti a b hab hba)

end Rustasata

namespace Rustasata

theorem mem_clause_new (nums : List Int) (l : Literal) :
    l ∈ (Clause.new nums).literals ↔ l.val ∈ nums := by
  simp only [Clause.new, List.mem_map]
  constructor
  · rintro ⟨v, hv, rfl⟩
    exact (List.perm_insertionSort (· ≤ ·) nums).mem_iff.mp
      ((mem_dedupAdjacent v _).mp hv)
  · intro h
    exact ⟨l.val, (mem_dedupAdjacent _ _).mpr
      ((List.perm_insertionSort (· ≤ ·) nums).mem_iff.mpr h), rfl⟩

theorem clause_new_pairwise (nums : List Int) :
    (Clause.new nums).literals.Pairwise fun x y => x.val < y.val := by
  simp only [Clause.new]
  rw [List.pairwise_map]
  have hs : (List.insertionSort (· ≤ ·) nums).Pairwise (· ≤ ·) :=
    List.sorted_insertionSort _ nums
  have hd := dedupAdjacent_pairwise (fun a b h1 h2 => le_antisymm h1 h2) hs
  exact hd.imp fun hab => lt_of_le_of_ne hab.1 hab.2

theorem literal_val_ne_of_ne {a b : Literal} (h : a ≠ b) : a.val ≠ b.val := by
  intro hv
  apply h
  cases a
  cases b
  simpa using hv

theorem litLe_antisymm : ∀ a b : Literal, litLe a b → litLe b a → a = b := by
  intro a b h1 h2
  cases a
  cases b
  simp only [litLe] at h1 h2
  simp only [Literal.mk.injEq]
  omega

theorem mem_resolve (alits blits : List Literal) (p : Literal) (l : Literal) :
    l ∈ Solver.resolve alits blits p ↔
      ((l ∈ alits ∨ l ∈ blits) ∧ l.var ≠ p.var) := by
  unfold Solver.resolve
  rw [mem_dedupAdjacent, (List.perm_insertionSort litLe _).mem_iff]
  simp only [List.mem_append, List.mem_filter, decide_eq_true_eq]
  tauto

theorem resolve_pairwise (alits blits : List Literal) (p : Literal) :
    (Solver.resolve alits blits p).Pairwise fun x y => x.val < y.val := by
  unfold Solver.resolve
  have hs := List.sorted_insertionSort litLe
    ((alits.filter fun l => l.var ≠ p.var) ++ blits.filter fun x => x.var ≠ p.var)
  exact (dedupAdjacent_pairwise litLe_antisymm hs).imp
    fun hab => lt_of_le_of_ne hab.1 (literal_val_ne_of_ne hab.2)

/-- C3 counterexample: the claim states that resolution removes every
literal over the pivot variable, of either polarity.  Clause::resolution
compares the full literal value, so the opposite-polarity literal -1
survives resolution of the clause [-1, 1] with [1] on pivot literal 1,
even though its variable equals the pivot variable. -/
theorem resolution_keeps_opposite_pivot_literal :
    (Clause.resolution (Clause.new [-1, 1]) (Clause.new [1]) ⟨1⟩).literals
        = [⟨-1⟩] ∧
    Literal.var ⟨-1⟩ = Literal.var ⟨1⟩ := by
  exact ⟨rfl, rfl⟩

/-- C3 (amended): Clause::resolution produces a clause containing
exactly the literals of self and other whose full value (variable and
polarity) differs from the pivot literal — only the pivot literal itself
is removed, opposite-polarity literals over the pivot variable are kept
— sorted and deduplicated; Solver::resolve, used by conflict analysis,
removes literals over the pivot variable of either polarity, sorted and
deduplicated. -/
theorem resolution_and_resolve_spec (a b : Clause)
    (alits blits : List Literal) (p : Literal) :
    ((∀ l, l ∈ (Clause.resolution a b p).literals ↔
        ((l ∈ a.literals ∨ l ∈ b.literals) ∧ l.val ≠ p.val)) ∧
      (Clause.resolution a b p).literals.Pairwise (fun x y => x.val < y.val)) ∧
    ((∀ l, l ∈ Solver.resolve alits blits p ↔
        ((l ∈ alits ∨ l ∈ blits) ∧ l.var ≠ p.var)) ∧
      (Solver.resolve alits blits p).Pairwise fun x y => x.val < y.val) := by
  refine ⟨⟨fun l => ?_, ?_⟩,
    fun l => mem_resolve alits blits p l, resolve_pairwise alits blits p⟩
  · rw [Clause.resolution, mem_clause_new]
    simp only [List.mem_append, List.mem_map, List.mem_filter, decide_eq_true_eq]
    constructor
    · rintro (⟨x, ⟨hx, hxv⟩, hveq⟩ | ⟨x, ⟨hx, hxv⟩, hveq⟩)
      · have hxl : x = l := by
          cases x; cases l; simpa using hveq
        subst hxl
        exact ⟨Or.inl hx, hxv⟩
      · have hxl : x = l := by
          cases x; cases l; simpa using hveq
        subst hxl
        exact ⟨Or.inr hx, hxv⟩
    · rintro ⟨hl | hl, hv⟩
      · exact Or.inl ⟨l, ⟨hl, hv⟩, rfl⟩
      · exact Or.inr ⟨l, ⟨hl, hv⟩, rfl⟩
  · unfold Clause.resolution
    exact clause_new_pairwise _

end Rustasata

namespace Rustasata

/-- VariablePriority(is_assigned, score, pos_occurrences, neg_occurrences)
from src/decision_provider.rs line 11. -/
structure VariablePriority where
  assigned : Bool
  score : Nat
  pos : Nat
  neg : Nat
  deriving DecidableEq, Repr

/-- The Ord instance of VariablePriority (decision_provider.rs 19-29):
an assigned entry is smaller than an unassigned one; otherwise entries
compare by score. -/
def VariablePriority.cmp (self other : VariablePriority) : Ordering :=
  if self.assigned && !other.assigned then Ordering.lt
  else if !self.assigned && other.assigned then Ordering.gt
  else compare self.score other.score

/-- VariablePriority::new: fresh entry with score 1 and one occurrence
of the literal polarity. -/
def VariablePriority.new (literal : Literal) : VariablePriority :=
  ⟨false, 1, if literal.sign then 1 else 0, if literal.sign then 0 else 1⟩

/-- VariablePriority::occ: bump score and the polarity count. -/
def VariablePriority.occ (self : VariablePriority) (literal : Literal) :
    VariablePriority :=
  ⟨self.assigned, self.score + 1,
    self.pos + if literal.sign then 1 else 0,
    self.neg + if literal.sign then 0 else 1⟩

/-- VariablePriority::set. -/
def VariablePriority.set (self : VariablePriority) : VariablePriority :=
  { self with assigned := true }

/-- VariablePriority::unset. -/
def VariablePriority.unset (self : VariablePriority) : VariablePriority :=
  { self with assigned := false }

/-- VariablePriority::literal, from src/decision_provider.rs lines
58-68: None when assigned, otherwise the variable with positive sign
exactly when pos_occurrences strictly exceed neg_occurrences. -/
def VariablePriority.literal (self : VariablePriority) (vname : Nat) :
    Option Literal :=
  if self.assigned then none
  else some ⟨if self.pos > self.neg then (vname : Int) else -(vname : Int)⟩

/-- DecisionProvider state.  The Rust implementation keeps the
(variable, priority) pairs in a binary-heap priority queue from the
priority_queue crate; we model the container as the list of pairs and
peek as a maximum with respect to the same ordering.  The crate leaves
the choice among equal-priority entries unspecified; our peek keeps the
first maximal entry. -/
structure DecisionProvider where
  queue : List (Nat × VariablePriority)
  deriving DecidableEq, Repr

/-- PriorityQueue::get on the model: the entry stored for a variable. -/
def DecisionProvider.getEntry (dp : DecisionProvider) (v : Nat) :
    Option VariablePriority :=
  (dp.queue.find? fun e => e.1 == v).map Prod.snd

/-- PriorityQueue::change_priority_by on the model. -/
def DecisionProvider.changePriorityBy (dp : DecisionProvider) (v : Nat)
    (f : VariablePriority → VariablePriority) : DecisionProvider :=
  ⟨dp.queue.map fun e => if e.1 == v then (e.1, f e.2) else e⟩

/-- PriorityQueue::push on the model. -/
def DecisionProvider.push (dp : DecisionProvider) (v : Nat)
    (p : VariablePriority) : DecisionProvider :=
  ⟨dp.queue ++ [(v, p)]⟩

/-- DecisionProvider::new_clause (decision_provider.rs 83-93). -/
def DecisionProvider.new_clause (dp : DecisionProvider)
    (literals : List Literal) : DecisionProvider :=
  literals.foldl (fun dp literal =>
    if (dp.getEntry literal.var).isNone then
      dp.push literal.var (VariablePriority.new literal)
    else
      dp.changePriorityBy literal.var fun prio => prio.occ literal) dp

/-- One step of the maximum fold implementing peek. -/
def peekStep (acc : Option (Nat × VariablePriority))
    (e : Nat × VariablePriority) : Option (Nat × VariablePriority) :=
  match acc with
  | none => some e
  | some best =>
      if best.2.cmp e.2 = Ordering.lt then some e else some best

/-- PriorityQueue::peek on the model: the first entry of maximal
priority. -/
def DecisionProvider.peek (dp : DecisionProvider) :
    Option (Nat × VariablePriority) :=
  dp.queue.foldl peekStep none

/-- DecisionProvider::get_next (decision_provider.rs 95-97). -/
def DecisionProvider.get_next (dp : DecisionProvider) : Option Literal :=
  dp.peek.bind fun ip => ip.2.literal ip.1

/-- DecisionProvider::set. -/
def DecisionProvider.set (dp : DecisionProvider) (v : Nat) : DecisionProvider :=
  dp.changePriorityBy v VariablePriority.set

/-- DecisionProvider::unset. -/
def DecisionProvider.unset (dp : DecisionProvider) (v : Nat) : DecisionProvider :=
  dp.changePriorityBy v VariablePriority.unset

theorem peekStep_unassigned (acc : Option (Nat × VariablePriority))
    (e : Nat × VariablePriority)
    (h : (∃ b, acc = some b ∧ b.2.assigned = false) ∨ e.2.assigned = false) :
    ∃ c, peekStep acc e = some c ∧ c.2.assigned = false := by
  match acc with
  | none =>
      rcases h with ⟨b, hb, _⟩ | he
      · exact absurd hb (by simp)
      · exact ⟨e, rfl, he⟩
  | some b =>
      by_cases hb : b.2.assigned
      · have he : e.2.assigned = false := by
          rcases h with ⟨b2, hb2, hbf⟩ | he
          · rw [Option.some.injEq] at hb2
            rw [← hb2] at hbf
            rw [hb] at hbf
            exact absurd hbf (by simp)
          · exact he
        have hcmp : b.2.cmp e.2 = Ordering.lt := by
          unfold VariablePriority.cmp
          rw [hb, he]
          rfl
        exact ⟨e, by simp [peekStep, hcmp], he⟩
      · have hbf : b.2.assigned = false := by
          cases hh : b.2.assigned
          · rfl
          · exact absurd hh hb
        by_cases hcmp : b.2.cmp e.2 = Ordering.lt
        · refine ⟨e, by simp [peekStep, hcmp], ?_⟩
          cases he : e.2.assigned
          · rfl
          · unfold VariablePriority.cmp at hcmp
            rw [hbf, he] at hcmp
            simp at hcmp
        · exact ⟨b, by simp [peekStep, hcmp], hbf⟩

theorem peek_foldl_unassigned (l : List (Nat × VariablePriority)) :
    ∀ (b : Nat × VariablePriority), b.2.assigned = false →
      ∀ v p, l.foldl peekStep (some b) = some (v, p) → p.assigned = false := by
  induction l with
  | nil =>
      intro b hb v p h
      simp only [List.foldl_nil, Option.some.injEq] at h
      rw [h] at hb
      exact hb
  | cons e rest ih =>
      intro b hb v p h
      simp only [List.foldl_cons] at h
      obtain ⟨c, hc, hcf⟩ := peekStep_unassigned (some b) e (Or.inl ⟨b, rfl, hb⟩)
      rw [hc] at h
      exact ih c hcf v p h

theorem peek_all_assigned (dp : DecisionProvider) (v : Nat)
    (p : VariablePriority) (hpk : dp.peek = some (v, p))
    (hassigned : p.assigned = true) :
    ∀ e ∈ dp.queue, e.2.assigned = true := by
  unfold DecisionProvider.peek at hpk
  intro e he
  by_contra hne
  have hef : e.2.assigned = false := by
    cases hh : e.2.assigned
    · rfl
    · exact absurd hh hne
  obtain ⟨l1, l2, heq⟩ := List.append_of_mem he
  rw [heq, List.foldl_append, List.foldl_cons] at hpk
  obtain ⟨c, hc, hcf⟩ := peekStep_unassigned
    (l1.foldl peekStep none) e (Or.inr hef)
  rw [hc] at hpk
  have := peek_foldl_unassigned l2 c hcf v p hpk
  rw [hassigned] at this
  exact absurd this (by simp)

end Rustasata

namespace Rustasata

/-- C7 counterexample: the claim states the returned literal is positive
iff pos_count ≥ neg_count.  After registering the clause [1, -1] the
single queue entry for variable 1 has pos_count = neg_count = 1, so the
claim requires the positive literal 1; the code compares with strict
greater-than (decision_provider.rs line 62) and returns -1. -/
theorem get_next_tie_gives_negative :
    (DecisionProvider.new_clause ⟨[]⟩ [⟨1⟩, ⟨-1⟩]).peek =
      some (1, ⟨false, 2, 1, 1⟩) ∧
    (DecisionProvider.new_clause ⟨[]⟩ [⟨1⟩, ⟨-1⟩]).get_next = some ⟨-1⟩ ∧
    Literal.sign ⟨-1⟩ = false := by
  decide

/-- C7 (amended): when the queue has a top entry (v, p), get_next
returns None exactly when p's assigned bit is set — in which case every
queue entry is assigned, so no unassigned variable remains — and
otherwise returns the literal over v whose sign is positive iff the
positive-occurrence count strictly exceeds the negative one; on an empty
queue get_next also returns None. -/
theorem get_next_spec (dp : DecisionProvider) (v : Nat)
    (p : VariablePriority) (h : dp.peek = some (v, p)) :
    (dp.get_next = none ↔ p.assigned = true) ∧
    (p.assigned = true → ∀ e ∈ dp.queue, e.2.assigned = true) ∧
    (p.assigned = false →
      dp.get_next = some ⟨if p.pos > p.neg then (v : Int) else -(v : Int)⟩) ∧
    (∀ dp0 : DecisionProvider, dp0.queue = [] → dp0.get_next = none) := by
  refine ⟨?_, fun ha => peek_all_assigned dp v p h ha, fun ha => ?_, ?_⟩
  · unfold DecisionProvider.get_next
    rw [h]
    rw [Option.some_bind]
    unfold VariablePriority.literal
    by_cases ha : p.assigned
    · simp [ha]
    · simp [ha]
  · unfold DecisionProvider.get_next
    rw [h]
    rw [Option.some_bind]
    unfold VariablePriority.literal
    rw [if_neg (by simp [ha])]
  · intro dp0 h0
    unfold DecisionProvider.get_next DecisionProvider.peek
    rw [h0]
    rfl

/-- C7 witness: the amended statement applied to a queue holding the
single unassigned entry (2, (false, 3, 2, 1)). -/
theorem get_next_spec_witness :
    ((DecisionProvider.mk [(2, ⟨false, 3, 2, 1⟩)]).get_next = none ↔
      (⟨false, 3, 2, 1⟩ : VariablePriority).assigned = true) ∧
    ((⟨false, 3, 2, 1⟩ : VariablePriority).assigned = true →
      ∀ e ∈ (DecisionProvider.mk [(2, ⟨false, 3, 2, 1⟩)]).queue,
        e.2.assigned = true) ∧
    ((⟨false, 3, 2, 1⟩ : VariablePriority).assigned = false →
      (DecisionProvider.mk [(2, ⟨false, 3, 2, 1⟩)]).get_next =
        some ⟨if (⟨false, 3, 2, 1⟩ : VariablePriority).pos >
            (⟨false, 3, 2, 1⟩ : VariablePriority).neg
          then ((2 : Nat) : Int) else -((2 : Nat) : Int)⟩) ∧
    (∀ dp0 : DecisionProvider, dp0.queue = [] → dp0.get_next = none) :=
  get_next_spec ⟨[(2, ⟨false, 3, 2, 1⟩)]⟩ 2 ⟨false, 3, 2, 1⟩ (by decide)

end Rustasata

namespace Rustasata

/-- WatchedUpdate, from src/clause.rs lines 9-13. -/
inductive WatchedUpdate where
  | NowUnit (l : Literal)
  | NewWatched (l : Literal)
  | NoChange
  deriving DecidableEq, Repr

/-- The scan loop of Clause::next_unwatched (clause.rs 124-134):
walk the literals from the given position, skip the two watched
positions, and return the first literal not falsified under the current
assignment. -/
def nextUnwatchedAux (w1 w2 : Nat) (assigns : Nat → Option Bool) :
    List Literal → Nat → Option (Nat × Literal)
  | [], _ => none
  | l :: rest, idx =>
      if w1 = idx ∨ w2 = idx then nextUnwatchedAux w1 w2 assigns rest (idx + 1)
      else if l.falsified_by (assigns l.var) = false then some (idx, l)
      else nextUnwatchedAux w1 w2 assigns rest (idx + 1)

/-- Clause::next_unwatched. -/
def Clause.next_unwatched (c : Clause) (assigns : Nat → Option Bool) :
    Option (Nat × Literal) :=
  nextUnwatchedAux c.watched.1 c.watched.2 assigns c.literals 0

/-- Clause::update_watched, from src/clause.rs lines 86-122.  The Rust
method mutates the watched slot in place; we return the updated clause
next to the WatchedUpdate result. -/
def Clause.update_watched (c : Clause) (assigns : Nat → Option Bool) :
    WatchedUpdate × Clause :=
  if c.watched.1 = c.watched.2 then
    (WatchedUpdate.NowUnit (c.literals.getD c.watched.1 ⟨0⟩), c)
  else if (c.literals.getD c.watched.1 ⟨0⟩).satisfied_by
        (assigns (c.literals.getD c.watched.1 ⟨0⟩).var)
      || (c.literals.getD c.watched.2 ⟨0⟩).satisfied_by
        (assigns (c.literals.getD c.watched.2 ⟨0⟩).var) then
    (WatchedUpdate.NoChange, c)
  else if !(c.literals.getD c.watched.1 ⟨0⟩).falsified_by
        (assigns (c.literals.getD c.watched.1 ⟨0⟩).var)
      && !(c.literals.getD c.watched.2 ⟨0⟩).falsified_by
        (assigns (c.literals.getD c.watched.2 ⟨0⟩).var) then
    (WatchedUpdate.NoChange, c)
  else
    match c.next_unwatched assigns with
    | none =>
        if (c.literals.getD c.watched.1 ⟨0⟩).falsified_by
            (assigns (c.literals.getD c.watched.1 ⟨0⟩).var) then
          (WatchedUpdate.NowUnit (c.literals.getD c.watched.2 ⟨0⟩), c)
        else
          (WatchedUpdate.NowUnit (c.literals.getD c.watched.1 ⟨0⟩), c)
    | some (idx, lit) =>
        if (c.literals.getD c.watched.1 ⟨0⟩).falsified_by
            (assigns (c.literals.getD c.watched.1 ⟨0⟩).var) then
          (WatchedUpdate.NewWatched lit, { c with watched := (idx, c.watched.2) })
        else
          (WatchedUpdate.NewWatched lit, { c with watched := (c.watched.1, idx) })

theorem nextUnwatchedAux_some (w1 w2 : Nat) (σ : Nat → Option Bool) :
    ∀ (l : List Literal) (start idx : Nat) (lit : Literal),
      nextUnwatchedAux w1 w2 σ l start = some (idx, lit) →
      ∃ k, k < l.length ∧ idx = start + k ∧ l.getD k ⟨0⟩ = lit ∧
        idx ≠ w1 ∧ idx ≠ w2 ∧ lit.falsified_by (σ lit.var) = false ∧
        ∀ j, j < k → (start + j = w1 ∨ start + j = w2) ∨
          (l.getD j ⟨0⟩).falsified_by (σ (l.getD j ⟨0⟩).var) = true
  | [], start, idx, lit => by
      intro h
      exact absurd h (by simp [nextUnwatchedAux])
  | a :: rest, start, idx, lit => by
      intro h
      unfold nextUnwatchedAux at h
      by_cases hws : w1 = start ∨ w2 = start
      · rw [if_pos hws] at h
        obtain ⟨k, hk, hidx, hget, hw1, hw2, hfals, hprev⟩ :=
          nextUnwatchedAux_some w1 w2 σ rest (start + 1) idx lit h
        refine ⟨k + 1, by simpa using hk, by omega, by simpa using hget,
          hw1, hw2, hfals, ?_⟩
        intro j hj
        match j with
        | 0 =>
            left
            omega
        | j + 1 =>
            have := hprev j (by omega)
            simpa [Nat.add_assoc, Nat.add_comm 1 j] using this
      · rw [if_neg hws] at h
        by_cases hfa : a.falsified_by (σ a.var) = false
        · rw [if_pos hfa] at h
          simp only [Option.some.injEq, Prod.mk.injEq] at h
          obtain ⟨hidx, hlit⟩ := h
          refine ⟨0, by simp, by omega, by simpa using hlit, ?_, ?_, ?_, ?_⟩
          · omega
          · omega
          · rw [hlit] at hfa
            exact hfa
          · intro j hj
            omega
        · rw [if_neg hfa] at h
          obtain ⟨k, hk, hidx, hget, hw1, hw2, hfals, hprev⟩ :=
            nextUnwatchedAux_some w1 w2 σ rest (start + 1) idx lit h
          refine ⟨k + 1, by simpa using hk, by omega, by simpa using hget,
            hw1, hw2, hfals, ?_⟩
          intro j hj
          match j with
          | 0 =>
              right
              simp only [List.getD_cons_zero]
              cases hv : a.falsified_by (σ a.var)
              · exact absurd hv hfa
              · rfl
          | j + 1 =>
              have := hprev j (by omega)
              simpa [Nat.add_assoc, Nat.add_comm 1 j] using this

end Rustasata

namespace Rustasata

theorem nextUnwatchedAux_none (w1 w2 : Nat) (σ : Nat → Option Bool) :
    ∀ (l : List Literal) (start : Nat),
      nextUnwatchedAux w1 w2 σ l start = none →
      ∀ k, k < l.length → (start + k = w1 ∨ start + k = w2) ∨
        (l.getD k ⟨0⟩).falsified_by (σ (l.getD k ⟨0⟩).var) = true
  | [], start => by
      intro _ k hk
      exact absurd hk (by simp)
  | a :: rest, start => by
      intro h k hk
      unfold nextUnwatchedAux at h
      by_cases hws : w1 = start ∨ w2 = start
      · rw [if_pos hws] at h
        have ih := nextUnwatchedAux_none w1 w2 σ rest (start + 1) h
        match k with
        | 0 =>
            left
            omega
        | k + 1 =>
            have := ih k (by simpa using hk)
            simpa [Nat.add_assoc, Nat.add_comm 1 k] using this
      · rw [if_neg hws] at h
        by_cases hfa : a.falsified_by (σ a.var) = false
        · rw [if_pos hfa] at h
          exact absurd h (by simp)
        · rw [if_neg hfa] at h
          have ih := nextUnwatchedAux_none w1 w2 σ rest (start + 1) h
          match k with
          | 0 =>
              right
              simp only [List.getD_cons_zero]
              cases hv : a.falsified_by (σ a.var)
              · exact absurd hv hfa
              · rfl
          | k + 1 =>
              have := ih k (by simpa using hk)
              simpa [Nat.add_assoc, Nat.add_comm 1 k] using this

/-- C5 counterexample: the claim states that propagation returns
NoChange exactly when the literal at the just-falsified slot is
satisfied, and otherwise scans for a replacement.  On the clause
[1, 2, 3] with watched slots (0, 1), assignment {1 ↦ false, 2 ↦ true},
the slot-0 literal 1 just became falsified and is not satisfied, and a
non-falsified replacement 3 exists at position 2, yet update_watched
returns NoChange because the slot-1 literal 2 is satisfied
(clause.rs line 97). -/
theorem update_watched_nochange_despite_falsified_watch :
    ((Clause.new [1, 2, 3]).update_watched
        (fun v => if v = 1 then some false else
          if v = 2 then some true else none)).1 = WatchedUpdate.NoChange ∧
    (Clause.new [1, 2, 3]).watched = (0, 1) ∧
    Literal.falsified_by ⟨1⟩ (some false) = true ∧
    Literal.satisfied_by ⟨1⟩ (some false) = false ∧
    (Clause.new [1, 2, 3]).next_unwatched
        (fun v => if v = 1 then some false else
          if v = 2 then some true else none) = some (2, ⟨3⟩) := by
  decide

/-- C5 (amended): on a clause with two distinct watched slots,
update_watched returns NoChange exactly when one of the two watched
literals is satisfied or neither is falsified (stale queue entries
cover all these cases); otherwise it scans the non-watched positions in
increasing order for the first non-falsified literal: if one exists at
position p it repoints the falsified first slot (or the second slot
when the first is not falsified) at p and returns NewWatched of that
literal, and if none exists it returns NowUnit of the second watched
literal when the first is falsified and of the first otherwise, leaving
the clause unchanged. -/
theorem update_watched_spec (c : Clause) (σ : Nat → Option Bool)
    (hw : c.watched.1 ≠ c.watched.2) :
    ((c.update_watched σ).1 = WatchedUpdate.NoChange ↔
      ((c.literals.getD c.watched.1 ⟨0⟩).satisfied_by
          (σ (c.literals.getD c.watched.1 ⟨0⟩).var) = true ∨
       (c.literals.getD c.watched.2 ⟨0⟩).satisfied_by
          (σ (c.literals.getD c.watched.2 ⟨0⟩).var) = true ∨
       ((c.literals.getD c.watched.1 ⟨0⟩).falsified_by
          (σ (c.literals.getD c.watched.1 ⟨0⟩).var) = false ∧
        (c.literals.getD c.watched.2 ⟨0⟩).falsified_by
          (σ (c.literals.getD c.watched.2 ⟨0⟩).var) = false))) ∧
    (∀ idx lit, c.next_unwatched σ = some (idx, lit) →
      idx < c.literals.length ∧ idx ≠ c.watched.1 ∧ idx ≠ c.watched.2 ∧
      c.literals.getD idx ⟨0⟩ = lit ∧
      lit.falsified_by (σ lit.var) = false ∧
      ∀ j, j < idx → (j = c.watched.1 ∨ j = c.watched.2) ∨
        (c.literals.getD j ⟨0⟩).falsified_by
          (σ (c.literals.getD j ⟨0⟩).var) = true) ∧
    (c.next_unwatched σ = none →
      ∀ j, j < c.literals.length → (j = c.watched.1 ∨ j = c.watched.2) ∨
        (c.literals.getD j ⟨0⟩).falsified_by
          (σ (c.literals.getD j ⟨0⟩).var) = true) ∧
    (∀ idx lit,
      (c.literals.getD c.watched.1 ⟨0⟩).satisfied_by
          (σ (c.literals.getD c.watched.1 ⟨0⟩).var) = false →
      (c.literals.getD c.watched.2 ⟨0⟩).satisfied_by
          (σ (c.literals.getD c.watched.2 ⟨0⟩).var) = false →
      ((c.literals.getD c.watched.1 ⟨0⟩).falsified_by
          (σ (c.literals.getD c.watched.1 ⟨0⟩).var) = true ∨
       (c.literals.getD c.watched.2 ⟨0⟩).falsified_by
          (σ (c.literals.getD c.watched.2 ⟨0⟩).var) = true) →
      c.next_unwatched σ = some (idx, lit) →
      c.update_watched σ =
        (WatchedUpdate.NewWatched lit,
          if (c.literals.getD c.watched.1 ⟨0⟩).falsified_by
              (σ (c.literals.getD c.watched.1 ⟨0⟩).var) = true
          then { c with watched := (idx, c.watched.2) }
          else { c with watched := (c.watched.1, idx) })) ∧
    ((c.literals.getD c.watched.1 ⟨0⟩).satisfied_by
        (σ (c.literals.getD c.watched.1 ⟨0⟩).var) = false →
      (c.literals.getD c.watched.2 ⟨0⟩).satisfied_by
          (σ (c.literals.getD c.watched.2 ⟨0⟩).var) = false →
      ((c.literals.getD c.watched.1 ⟨0⟩).falsified_by
          (σ (c.literals.getD c.watched.1 ⟨0⟩).var) = true ∨
       (c.literals.getD c.watched.2 ⟨0⟩).falsified_by
          (σ (c.literals.getD c.watched.2 ⟨0⟩).var) = true) →
      c.next_unwatched σ = none →
      c.update_watched σ =
        (WatchedUpdate.NowUnit
          (if (c.literals.getD c.watched.1 ⟨0⟩).falsified_by
              (σ (c.literals.getD c.watched.1 ⟨0⟩).var) = true
           then c.literals.getD c.watched.2 ⟨0⟩
           else c.literals.getD c.watched.1 ⟨0⟩), c)) := by
  refine ⟨?_, ?_, ?_, ?_, ?_⟩
  · unfold Clause.update_watched
    rw [if_neg hw]
    simp only [List.getD_eq_getElem?_getD]
    set A := c.literals[c.watched.1]?.getD (⟨0⟩ : Literal)
    set B := c.literals[c.watched.2]?.getD (⟨0⟩ : Literal)
    cases hs1 : A.satisfied_by (σ A.var) <;>
      cases hs2 : B.satisfied_by (σ B.var) <;>
      cases hf1 : A.falsified_by (σ A.var) <;>
      cases hf2 : B.falsified_by (σ B.var) <;>
      simp only [hs1, hs2, hf1, hf2, Bool.or_false, Bool.or_self, Bool.or_true,
        Bool.false_eq_true, Bool.true_eq_false, Bool.not_false, Bool.not_true,
        Bool.and_self, Bool.and_false, Bool.false_and, Bool.true_and,
        Bool.and_true, if_true, if_false, and_self, and_false, false_and,
        or_true, true_or, or_false, false_or, iff_true, iff_false] <;>
      first
        | simp
        | (cases hnu : c.next_unwatched σ <;> simp [hnu])
  · intro idx lit h
    obtain ⟨k, hk, hidx, hget, hw1, hw2, hfals, hprev⟩ :=
      nextUnwatchedAux_some c.watched.1 c.watched.2 σ c.literals 0 idx lit h
    refine ⟨by omega, hw1, hw2, by rw [hidx]; simpa using hget, hfals, ?_⟩
    intro j hj
    have hx := hprev j (by omega)
    rcases hx with hwj | hfj
    · left
      rcases hwj with hl | hr
      · left; omega
      · right; omega
    · right
      exact hfj
  · intro h j hj
    have hx := nextUnwatchedAux_none c.watched.1 c.watched.2 σ c.literals 0 h j hj
    rcases hx with hwj | hfj
    · left
      rcases hwj with hl | hr
      · left; omega
      · right; omega
    · right
      exact hfj
  · intro idx lit h1 h2 h34 hnu
    unfold Clause.update_watched
    rw [if_neg hw]
    simp only [List.getD_eq_getElem?_getD] at h1 h2 h34 ⊢
    set A := c.literals[c.watched.1]?.getD (⟨0⟩ : Literal)
    set B := c.literals[c.watched.2]?.getD (⟨0⟩ : Literal)
    cases hf1 : A.falsified_by (σ A.var)
    · have hf2 : B.falsified_by (σ B.var) = true := by
        rcases h34 with h3 | h4
        · rw [hf1] at h3
          exact absurd h3 (by simp)
        · exact h4
      simp [h1, h2, hf1, hf2, hnu]
    · simp [h1, h2, hf1, hnu]
  · intro h1 h2 h34 hnu
    unfold Clause.update_watched
    rw [if_neg hw]
    simp only [List.getD_eq_getElem?_getD] at h1 h2 h34 ⊢
    set A := c.literals[c.watched.1]?.getD (⟨0⟩ : Literal)
    set B := c.literals[c.watched.2]?.getD (⟨0⟩ : Literal)
    cases hf1 : A.falsified_by (σ A.var)
    · have hf2 : B.falsified_by (σ B.var) = true := by
        rcases h34 with h3 | h4
        · rw [hf1] at h3
          exact absurd h3 (by simp)
        · exact h4
      simp [h1, h2, hf1, hf2, hnu]
    · simp [h1, h2, hf1, hnu]

/-- C5 witness: the amended statement applied to the clause [1, 2] with
watched slots (0, 1) under the empty assignment (first conjunct: the
result is NoChange since neither watched literal is falsified). -/
theorem update_watched_spec_witness :
    ((Clause.mk (0, 1) [⟨1⟩, ⟨2⟩]).update_watched (fun _ => none)).1
        = WatchedUpdate.NoChange ↔
      (Literal.satisfied_by ⟨1⟩ none = true ∨
       Literal.satisfied_by ⟨2⟩ none = true ∨
       (Literal.falsified_by ⟨1⟩ none = false ∧
        Literal.falsified_by ⟨2⟩ none = false)) :=
  (update_watched_spec (Clause.mk (0, 1) [⟨1⟩, ⟨2⟩]) (fun _ => none)
    (by decide)).1

end Rustasata

namespace Rustasata

/-- Clause identifiers: Rc<RefCell<Clause>> references are modelled as
indices into an append-only clause arena. -/
abbrev ClauseId := Nat

/-- Pointwise insertion into a VecMap modelled as a function. -/
def fnInsert {β : Type} (m : Nat → Option β) (k : Nat) (v : β) :
    Nat → Option β :=
  fun x => if x = k then some v else m x

/-- Pointwise removal from a VecMap modelled as a function. -/
def fnRemove {β : Type} (m : Nat → Option β) (k : Nat) : Nat → Option β :=
  fun x => if x = k then none else m x

/-- Solver state, from src/solver.rs lines 92-114.  Shared mutable
clause references live in the clauses arena; the VecMaps keyed by
variable are functions to Option; the watch index keyed by the literal
index is a total function to lists of clause ids.  Of the statistics
only the conflict counter is kept: should_restart consults it, the rest
are timers and counters with no influence on behaviour. -/
structure Solver where
  trivially_unsat : Bool
  conflicts : Nat
  learned_clauses : List ClauseId
  bcp_queue : List Literal
  decision_provider : DecisionProvider
  restart : Nat × Nat × Nat
  assigns : Nat → Option Bool
  reason : Nat → Option ClauseId
  level : Nat → Option Nat
  trail : List Literal
  trail_lim : List Nat
  watches : Nat → List ClauseId
  clauses : List Clause

/-- The per-literal clearing step of Solver::backtrack (solver.rs
415-420): drop the variable from assigns, level and reason, and notify
the decision provider. -/
def unsetStep (acc : Solver) (unset : Literal) : Solver :=
  { acc with
    assigns := fnRemove acc.assigns unset.var,
    level := fnRemove acc.level unset.var,
    reason := fnRemove acc.reason unset.var,
    decision_provider := acc.decision_provider.unset unset.var }

/-- Solver::backtrack, from src/solver.rs lines 406-422: truncate the
trail at trail_lim[to_level] and trail_lim at to_level, then clear every
popped literal.  Rust indexing into trail_lim panics when to_level is
out of bounds; all call sites keep it in bounds. -/
def Solver.backtrack (s : Solver) (to_level : Nat) : Solver :=
  let cut := s.trail_lim.getD to_level 0
  let unset_list := s.trail.drop cut
  let s1 := { s with
    trail := s.trail.take cut,
    trail_lim := s.trail_lim.take to_level }
  unset_list.foldl unsetStep s1

theorem unsetFold_frame (l : List Literal) :
    ∀ acc : Solver, (l.foldl unsetStep acc).trail = acc.trail ∧
      (l.foldl unsetStep acc).trail_lim = acc.trail_lim ∧
      (l.foldl unsetStep acc).clauses = acc.clauses ∧
      (l.foldl unsetStep acc).watches = acc.watches ∧
      (l.foldl unsetStep acc).bcp_queue = acc.bcp_queue := by
  induction l with
  | nil => intro acc; exact ⟨rfl, rfl, rfl, rfl, rfl⟩
  | cons a rest ih =>
      intro acc
      simpa [List.foldl_cons, unsetStep] using ih (unsetStep acc a)

theorem find_map_upd (v w : Nat) (f : VariablePriority → VariablePriority) :
    ∀ (q : List (Nat × VariablePriority)),
      (((q.map fun e => if e.1 == v then (e.1, f e.2) else e).find?
          fun e => e.1 == w).map Prod.snd) =
        if w = v then (((q.find? fun e => e.1 == w).map Prod.snd).map f)
        else ((q.find? fun e => e.1 == w).map Prod.snd)
  | [] => by by_cases h : w = v <;> simp [h]
  | e :: rest => by
      have ih := find_map_upd v w f rest
      simp only [List.map_cons]
      by_cases hev : (e.1 == v) = true
      · rw [if_pos hev]
        by_cases hew : (e.1 == w) = true
        · have hwv : w = v := by
            have h1 : e.1 = v := by simpa using hev
            have h2 : e.1 = w := by simpa using hew
            rw [← h2, h1]
          rw [if_pos hwv]
          rw [show List.find? (fun x => x.1 == w) ((e.1, f e.2) ::
                rest.map fun x => if x.1 == v then (x.1, f x.2) else x) =
              some (e.1, f e.2) from
            List.find?_cons_of_pos _ (by simpa using hew)]
          rw [show List.find? (fun x => x.1 == w) (e :: rest) = some e from
            List.find?_cons_of_pos _ hew]
          rfl
        · have hewf : ¬ ((e.1, f e.2).1 == w) = true := by simpa using hew
          rw [show List.find? (fun x => x.1 == w) ((e.1, f e.2) ::
                rest.map fun x => if x.1 == v then (x.1, f x.2) else x) =
              List.find? (fun x => x.1 == w)
                (rest.map fun x => if x.1 == v then (x.1, f x.2) else x) from
            List.find?_cons_of_neg _ hewf]
          rw [show List.find? (fun x => x.1 == w) (e :: rest) =
              List.find? (fun x => x.1 == w) rest from
            List.find?_cons_of_neg _ hew]
          exact ih
      · rw [if_neg hev]
        by_cases hew : (e.1 == w) = true
        · have hwv : ¬ w = v := by
            have h2 : e.1 = w := by simpa using hew
            intro hh
            rw [hh] at h2
            rw [h2] at hev
            simp at hev
          rw [if_neg hwv]
          rw [show List.find? (fun x => x.1 == w) (e ::
                rest.map fun x => if x.1 == v then (x.1, f x.2) else x) =
              some e from List.find?_cons_of_pos _ hew]
          rw [show List.find? (fun x => x.1 == w) (e :: rest) = some e from
            List.find?_cons_of_pos _ hew]
        · rw [show List.find? (fun x => x.1 == w) (e ::
                rest.map fun x => if x.1 == v then (x.1, f x.2) else x) =
              List.find? (fun x => x.1 == w)
                (rest.map fun x => if x.1 == v then (x.1, f x.2) else x) from
            List.find?_cons_of_neg _ hew]
          rw [show List.find? (fun x => x.1 == w) (e :: rest) =
              List.find? (fun x => x.1 == w) rest from
            List.find?_cons_of_neg _ hew]
          exact ih

theorem getEntry_changePriorityBy (dp : DecisionProvider) (v : Nat)
    (f : VariablePriority → VariablePriority) (w : Nat) :
    (dp.changePriorityBy v f).getEntry w =
      if w = v then (dp.getEntry w).map f else dp.getEntry w := by
  unfold DecisionProvider.changePriorityBy DecisionProvider.getEntry
  have hfm := find_map_upd v w f dp.queue
  by_cases h : w = v
  · rw [if_pos h] at hfm ⊢
    exact hfm
  · rw [if_neg h] at hfm ⊢
    exact hfm

theorem getEntry_unset (dp : DecisionProvider) (v w : Nat) :
    (dp.unset v).getEntry w =
      if w = v then (dp.getEntry w).map VariablePriority.unset
      else dp.getEntry w :=
  getEntry_changePriorityBy dp v VariablePriority.unset w

theorem unsetFold_maps (l : List Literal) :
    ∀ (acc : Solver) (v : Nat),
      ((l.foldl unsetStep acc).assigns v =
        if v ∈ l.map Literal.var then none else acc.assigns v) ∧
      ((l.foldl unsetStep acc).reason v =
        if v ∈ l.map Literal.var then none else acc.reason v) ∧
      ((l.foldl unsetStep acc).level v =
        if v ∈ l.map Literal.var then none else acc.level v) ∧
      ((l.foldl unsetStep acc).decision_provider.getEntry v =
        if v ∈ l.map Literal.var then
          (acc.decision_provider.getEntry v).map VariablePriority.unset
        else acc.decision_provider.getEntry v) := by
  induction l with
  | nil => intro acc v; simp
  | cons a rest ih =>
      intro acc v
      simp only [List.foldl_cons, List.map_cons, List.mem_cons]
      obtain ⟨iha, ihr, ihl, ihd⟩ := ih (unsetStep acc a) v
      have hstepa : (unsetStep acc a).assigns v =
          if v = a.var then none else acc.assigns v := by
        simp [unsetStep, fnRemove]
      have hstepr : (unsetStep acc a).reason v =
          if v = a.var then none else acc.reason v := by
        simp [unsetStep, fnRemove]
      have hstepl : (unsetStep acc a).level v =
          if v = a.var then none else acc.level v := by
        simp [unsetStep, fnRemove]
      have hstepd : (unsetStep acc a).decision_provider.getEntry v =
          if v = a.var then
            (acc.decision_provider.getEntry v).map VariablePriority.unset
          else acc.decision_provider.getEntry v := getEntry_unset _ _ _
      by_cases hv : v ∈ rest.map Literal.var
      · simp only [hv, or_true, if_true] at iha ihr ihl ihd ⊢
        refine ⟨iha, ihr, ihl, ?_⟩
        rw [ihd, hstepd]
        by_cases hva : v = a.var
        · rw [if_pos hva, Option.map_map]
          have hid : VariablePriority.unset ∘ VariablePriority.unset =
              VariablePriority.unset := by
            funext p
            rfl
          rw [hid]
        · rw [if_neg hva]
      · simp only [hv, or_false, if_false] at iha ihr ihl ihd
        simp only [hv, or_false]
        rw [iha, ihr, ihl, ihd, hstepa, hstepr, hstepl, hstepd]
        exact ⟨rfl, rfl, rfl, rfl⟩

/-- C9: for target_level below the current decision level (and a trail
whose variables are distinct, as store_assignment guarantees), backtrack
truncates the trail at trail_lim[target_level] and trail_lim at
target_level; each popped variable loses its value, reason and level and
its decision-provider entry is unset; the value, reason, level and
provider entry of every variable in the kept prefix (those assigned at
levels ≤ target_level) are unchanged. -/
theorem backtrack_spec (s : Solver) (to_level : Nat)
    (h1 : to_level < s.trail_lim.length)
    (h2 : (s.trail.map Literal.var).Nodup) :
    ((s.backtrack to_level).trail
        = s.trail.take (s.trail_lim.getD to_level 0) ∧
     (s.backtrack to_level).trail_lim = s.trail_lim.take to_level) ∧
    (∀ l ∈ s.trail.drop (s.trail_lim.getD to_level 0),
      (s.backtrack to_level).assigns l.var = none ∧
      (s.backtrack to_level).reason l.var = none ∧
      (s.backtrack to_level).level l.var = none ∧
      (s.backtrack to_level).decision_provider.getEntry l.var
        = (s.decision_provider.getEntry l.var).map VariablePriority.unset) ∧
    (∀ l ∈ s.trail.take (s.trail_lim.getD to_level 0),
      (s.backtrack to_level).assigns l.var = s.assigns l.var ∧
      (s.backtrack to_level).reason l.var = s.reason l.var ∧
      (s.backtrack to_level).level l.var = s.level l.var ∧
      (s.backtrack to_level).decision_provider.getEntry l.var
        = s.decision_provider.getEntry l.var) := by
  have hframe := unsetFold_frame (s.trail.drop (s.trail_lim.getD to_level 0))
    { s with trail := s.trail.take (s.trail_lim.getD to_level 0),
             trail_lim := s.trail_lim.take to_level }
  have hbt : s.backtrack to_level =
      (s.trail.drop (s.trail_lim.getD to_level 0)).foldl unsetStep
        { s with trail := s.trail.take (s.trail_lim.getD to_level 0),
                 trail_lim := s.trail_lim.take to_level } := rfl
  refine ⟨⟨?_, ?_⟩, ?_, ?_⟩
  · rw [hbt, hframe.1]
  · rw [hbt, hframe.2.1]
  · intro l hl
    have hmem : l.var ∈
        (s.trail.drop (s.trail_lim.getD to_level 0)).map Literal.var :=
      List.mem_map_of_mem _ hl
    obtain ⟨ha, hr, hlvl, hd⟩ := unsetFold_maps
      (s.trail.drop (s.trail_lim.getD to_level 0))
      { s with trail := s.trail.take (s.trail_lim.getD to_level 0),
               trail_lim := s.trail_lim.take to_level } l.var
    rw [hbt]
    refine ⟨?_, ?_, ?_, ?_⟩
    · rw [ha, if_pos hmem]
    · rw [hr, if_pos hmem]
    · rw [hlvl, if_pos hmem]
    · rw [hd, if_pos hmem]
  · intro l hl
    have h2a : ((s.trail.take (s.trail_lim.getD to_level 0)
        ++ s.trail.drop (s.trail_lim.getD to_level 0)).map Literal.var).Nodup := by
      rw [List.take_append_drop]
      exact h2
    rw [List.map_append] at h2a
    have hdisj := (List.nodup_append.mp h2a).2.2
    have hmem : l.var ∉
        (s.trail.drop (s.trail_lim.getD to_level 0)).map Literal.var :=
      fun hc => hdisj (List.mem_map_of_mem _ hl) hc
    obtain ⟨ha, hr, hlvl, hd⟩ := unsetFold_maps
      (s.trail.drop (s.trail_lim.getD to_level 0))
      { s with trail := s.trail.take (s.trail_lim.getD to_level 0),
               trail_lim := s.trail_lim.take to_level } l.var
    rw [hbt]
    refine ⟨?_, ?_, ?_, ?_⟩
    · rw [ha, if_neg hmem]
    · rw [hr, if_neg hmem]
    · rw [hlvl, if_neg hmem]
    · rw [hd, if_neg hmem]

/-- A concrete two-level solver state exercising backtrack. -/
def backtrackExample : Solver :=
  { trivially_unsat := false, conflicts := 0, learned_clauses := [],
    bcp_queue := [], decision_provider := ⟨[]⟩, restart := (100, 100, 100),
    assigns := fun _ => none, reason := fun _ => none, level := fun _ => none,
    trail := [⟨1⟩, ⟨2⟩], trail_lim := [0, 1], watches := fun _ => [],
    clauses := [] }

/-- C9 witness: the backtrack theorem applied to a concrete state with
trail [1, 2] and trail_lim [0, 1], backtracking to level 1. -/
theorem backtrack_spec_witness :
    ((backtrackExample.backtrack 1).trail
        = backtrackExample.trail.take (backtrackExample.trail_lim.getD 1 0) ∧
     (backtrackExample.backtrack 1).trail_lim
        = backtrackExample.trail_lim.take 1) ∧
    (∀ l ∈ backtrackExample.trail.drop (backtrackExample.trail_lim.getD 1 0),
      (backtrackExample.backtrack 1).assigns l.var = none ∧
      (backtrackExample.backtrack 1).reason l.var = none ∧
      (backtrackExample.backtrack 1).level l.var = none ∧
      (backtrackExample.backtrack 1).decision_provider.getEntry l.var
        = (backtrackExample.decision_provider.getEntry l.var).map
            VariablePriority.unset) ∧
    (∀ l ∈ backtrackExample.trail.take (backtrackExample.trail_lim.getD 1 0),
      (backtrackExample.backtrack 1).assigns l.var
        = backtrackExample.assigns l.var ∧
      (backtrackExample.backtrack 1).reason l.var
        = backtrackExample.reason l.var ∧
      (backtrackExample.backtrack 1).level l.var
        = backtrackExample.level l.var ∧
      (backtrackExample.backtrack 1).decision_provider.getEntry l.var
        = backtrackExample.decision_provider.getEntry l.var) :=
  backtrack_spec backtrackExample 1 (by decide) (by decide)

end Rustasata

namespace Rustasata

/-- SolverResult, from src/solver.rs lines 20-24. -/
inductive SolverResult where
  | Sat
  | Unsat
  deriving DecidableEq, Repr

/-- Default clause used to model the (unreachable) failure of an arena
lookup; Rust would panic on a dangling reference, which cannot occur
because the arena is append-only. -/
def emptyClause : Clause := ⟨(0, 0), []⟩

/-- Solver::store_assignment, from src/solver.rs lines 460-485.
Except.error models the Err(()) return on a contradicting value. -/
def Solver.store_assignment (s : Solver) (literal : Literal)
    (clause : Option ClauseId) : Except Unit Solver :=
  match s.assigns literal.var with
  | some current =>
      if current != literal.sign then Except.error () else Except.ok s
  | none =>
      let s1 :=
        match clause with
        | some c => { s with reason := fnInsert s.reason literal.var c }
        | none => { s with trail_lim := s.trail_lim ++ [s.trail.length] }
      Except.ok { s1 with
        trail := s1.trail ++ [literal],
        assigns := fnInsert s1.assigns literal.var literal.sign,
        level := fnInsert s1.level literal.var s1.trail_lim.length,
        decision_provider := s1.decision_provider.set literal.var,
        bcp_queue := s1.bcp_queue ++ [literal] }

/-- Solver::store_decision (solver.rs 229-233). -/
def Solver.store_decision (s : Solver) (literal : Literal) :
    Except Unit Solver :=
  s.store_assignment literal none

/-- Solver::store_consequence (solver.rs 283-286). -/
def Solver.store_consequence (s : Solver) (literal : Literal)
    (clause : ClauseId) : Except Unit Solver :=
  s.store_assignment literal (some clause)

/-- Rust Vec::remove of the first clause reference equal (by clause
value, as Rc PartialEq compares the pointees) to the given one, from the
helper vec_remove (solver.rs 488-492). -/
def vecRemoveClause (arena : List Clause) :
    List ClauseId → ClauseId → List ClauseId
  | [], _ => []
  | j :: rest, cid =>
      if arena.getD j emptyClause = arena.getD cid emptyClause then rest
      else j :: vecRemoveClause arena rest cid

/-- The watcher scan inside Solver::unit_propagate (solver.rs 246-268):
process the snapshot of the clauses watching the falsified literal,
threading the solver state, collecting the clauses to remove from this
watch list, and stopping at the first conflict (which also clears the
queue). -/
def propagateClauses (unit : Literal) :
    List ClauseId → Solver → List ClauseId →
      Solver × List ClauseId × Option ClauseId
  | [], s, to_remove => (s, to_remove, none)
  | cid :: rest, s, to_remove =>
      let c := s.clauses.getD cid emptyClause
      let (upd, c2) := c.update_watched s.assigns
      let s1 := { s with clauses := s.clauses.set cid c2 }
      match upd with
      | WatchedUpdate.NoChange => propagateClauses unit rest s1 to_remove
      | WatchedUpdate.NowUnit u =>
          match s1.store_consequence u cid with
          | Except.ok s2 => propagateClauses unit rest s2 to_remove
          | Except.error _ =>
              ({ s1 with bcp_queue := [] }, to_remove, some cid)
      | WatchedUpdate.NewWatched w =>
          let s2 := { s1 with watches := fun i =>
            if i = w.index then s1.watches i ++ [cid] else s1.watches i }
          propagateClauses unit rest s2 (to_remove ++ [cid])

/-- Solver::unit_propagate, from src/solver.rs lines 239-281, with
fuel for the queue-draining loop; none models exhausted fuel.  The
clause.propagate call of the final solver.rs is the update_watched
method of the clause variant present in the snapshot. -/
def unitPropagate : Nat → Solver → Option (Solver × Option ClauseId)
  | 0, _ => none
  | fuel + 1, s =>
      match s.bcp_queue with
      | [] => some (s, none)
      | unit :: queueRest =>
          let s0 := { s with bcp_queue := queueRest }
          let snapshot := s0.watches unit.neg.index
          let (s1, to_remove, conflict) := propagateClauses unit snapshot s0 []
          let newWatches : Nat → List ClauseId := fun i =>
            if i = unit.neg.index then
              to_remove.foldl (vecRemoveClause s1.clauses) (s1.watches i)
            else s1.watches i
          let s2 := { s1 with watches := newWatches }
          match conflict with
          | some cid => some (s2, some cid)
          | none => unitPropagate fuel s2

/-- The inner scan of Solver::select_resolution_literal (solver.rs
347-357) over the learned literals for one trail literal, threading the
running result; a Sum.inl return is the early Err. -/
def selectInner (hasReason : Nat → Bool) (curlit : Literal) :
    List Literal → Option Literal → Sum Literal (Option Literal)
  | [], acc => Sum.inr acc
  | lealit :: rest, acc =>
      if lealit.var = curlit.var then
        match acc with
        | none => selectInner hasReason curlit rest (some lealit)
        | some rlit =>
            if hasReason rlit.var then Sum.inl rlit else Sum.inl lealit
      else selectInner hasReason curlit rest acc

/-- The outer scan of Solver::select_resolution_literal over the
current-level trail literals in reverse chronological order. -/
def selectOuter (hasReason : Nat → Bool) (learned : List Literal) :
    List Literal → Option Literal → Option (Except Literal Literal)
  | [], none => none
  | [], some r => some (Except.ok r)
  | curlit :: rest, acc =>
      match selectInner hasReason curlit learned acc with
      | Sum.inl err => some (Except.error err)
      | Sum.inr acc2 => selectOuter hasReason learned rest acc2

/-- Solver::select_resolution_literal (solver.rs 340-365): Ok is the
unique learned literal over a current-level variable, Err the chosen
resolution pivot; none models the panic when no learned variable occurs
in the current level. -/
def select_resolution_literal (hasReason : Nat → Bool)
    (learned current : List Literal) : Option (Except Literal Literal) :=
  selectOuter hasReason learned current.reverse none

/-- The loop of Solver::get_clause_to_learn (solver.rs 308-326) with
explicit fuel; none models exhausted fuel or a panic (a missing reason
for the pivot, or no learned variable in the current level). -/
def learnLoop (hasReason : Nat → Bool)
    (reasonLits : Nat → Option (List Literal)) (current : List Literal) :
    Nat → List Literal → Option (List Literal × Literal)
  | 0, _ => none
  | fuel + 1, learned =>
      match select_resolution_literal hasReason learned current with
      | none => none
      | some (Except.ok unique) => some (learned, unique)
      | some (Except.error non_unique) =>
          match reasonLits non_unique.var with
          | none => none
          | some antecedent =>
              learnLoop hasReason reasonLits current fuel
                (Solver.resolve learned antecedent non_unique)

/-- One step of the maximum scan used by the spec-modelled
Clause::from_literals to locate a maximal-level literal position. -/
def argmaxStep (f : Nat × Literal → Nat) (best : Option (Nat × Literal))
    (p : Nat × Literal) : Option (Nat × Literal) :=
  match best with
  | none => some p
  | some b => if f p > f b then some p else some b

/-- Modelled from the spec: Clause::from_literals is called by
Solver::get_clause_to_learn (solver.rs line 323) but its definition is
missing from the repository snapshot — the present src/clause.rs is an
earlier variant without it.  The spec (sections 4.8 and the solver-loop
note) fixes the watched slots of an installed learned clause: for
length ≥ 2 they hold the asserting literal and the literal at the
next-highest decision level; for length 1 both slots hold the single
literal.  The model therefore watches the position of the asserting
literal and the position of a maximal-level other literal. -/
def Clause.from_literals (lits : List Literal) (unit : Literal)
    (level : Nat → Option Nat) : Clause :=
  if lits.length ≤ 1 then { watched := (0, 0), literals := lits }
  else
    let idxU := lits.indexOf unit
    let others := lits.enum.filter fun p => p.1 ≠ idxU
    let idxM := ((others.foldl
      (argmaxStep fun p => (level p.2.var).getD 0) none).map Prod.fst).getD 0
    { watched := (idxU, idxM), literals := lits }

/-- Solver::get_clause_to_learn (solver.rs 305-327). -/
def Solver.get_clause_to_learn (s : Solver) (conflict : ClauseId)
    (fuel : Nat) : Option (Clause × Literal) :=
  match s.trail_lim.getLast? with
  | none => none
  | some cut =>
      let learned0 := (s.clauses.getD conflict emptyClause).literals
      let current := s.trail.drop cut
      match learnLoop (fun v => (s.reason v).isSome)
          (fun v => (s.reason v).map fun cid =>
            (s.clauses.getD cid emptyClause).literals)
          current fuel learned0 with
      | none => none
      | some (learned, unique) =>
          some (Clause.from_literals learned unique s.level, unique)

/-- Solver::get_backtrack_level (solver.rs 367-379): the maximal level
among the clause literals below the current decision level. -/
def Solver.get_backtrack_level (s : Solver) (clause : Clause) : Nat :=
  clause.literals.foldl (fun dl literal =>
    let vardl := (s.level literal.var).getD 0
    if vardl = s.trail_lim.length then dl else max dl vardl) 0

/-- Solver::analyse_conflict (solver.rs 292-303).  The outer none
models a panic or exhausted fuel inside the analysis loop; some none is
the code's None return for a conflict at decision level 0. -/
def Solver.analyse_conflict (s : Solver) (conflict : ClauseId)
    (fuel : Nat) : Option (Option (Clause × Literal × Nat)) :=
  if s.trail_lim.length = 0 then some none
  else
    match s.get_clause_to_learn conflict fuel with
    | none => none
    | some (clause, unit) =>
        some (some (clause, unit, s.get_backtrack_level clause))

/-- Solver::add_learned_clause (solver.rs 381-400). -/
def Solver.add_learned_clause (s : Solver) (clause : Clause)
    (unit : Literal) : Except Unit Solver :=
  let s1 := { s with
    decision_provider := s.decision_provider.new_clause clause.literals }
  let wl1 := clause.watched_literals.1
  let wl2 := clause.watched_literals.2
  let cid := s1.clauses.length
  let s2 := { s1 with clauses := s1.clauses ++ [clause] }
  let s3 := { s2 with watches := fun i =>
    if i = wl1.index then s2.watches i ++ [cid] else s2.watches i }
  let s4 :=
    if wl1 ≠ wl2 then
      { s3 with watches := fun i =>
        if i = wl2.index then s3.watches i ++ [cid] else s3.watches i }
    else s3
  let s5 := { s4 with learned_clauses := s4.learned_clauses ++ [cid] }
  s5.store_consequence unit cid

/-- Solver::should_restart (solver.rs 429-435). -/
def Solver.should_restart (s : Solver) : Bool :=
  s.conflicts > s.restart.2.2 && s.trail_lim.length > 0

/-- Solver::restart (solver.rs 437-454), named runRestart because the
restart counters field already carries the source name.  The Rust code
computes (x as f64 * 1.1) as usize; for every usize x the double
rounding cannot cross an integer boundary (fractional parts of x*1.1
are multiples of 1/10 while the relative rounding error is around
1e-16), so this equals x * 11 / 10 in exact integer arithmetic. -/
def Solver.runRestart (s : Solver) : Solver :=
  let inner := s.restart.1
  let outer := s.restart.2.1
  let p :=
    if inner ≥ outer then (100, outer * 11 / 10)
    else (inner * 11 / 10, outer)
  let limit2 := s.conflicts + p.1
  ({ s with restart := (p.1, p.2, limit2) }).backtrack 0

/-- The conflict-handling inner loop of internal_solve (solver.rs
211-219): propagate; on conflict count it, analyse, backtrack and
learn; Sum.inl resumes the outer loop, Sum.inr ends the search.  The
none result models exhausted fuel or a panicking expect. -/
def conflictLoop : Nat → Solver → Option (Sum Solver SolverResult)
  | 0, _ => none
  | fuel + 1, s =>
      match unitPropagate (fuel + 1) s with
      | none => none
      | some (s1, none) => some (Sum.inl s1)
      | some (s1, some conflict) =>
          let s2 := { s1 with conflicts := s1.conflicts + 1 }
          match s2.analyse_conflict conflict (fuel + 1) with
          | none => none
          | some none => some (Sum.inr SolverResult.Unsat)
          | some (some (clause, unit, lvl)) =>
              match (s2.backtrack lvl).add_learned_clause clause unit with
              | Except.error _ => none
              | Except.ok s3 => conflictLoop fuel s3

/-- The decision loop of internal_solve (solver.rs 204-220). -/
def solveLoop : Nat → Solver → Option SolverResult
  | 0, _ => none
  | fuel + 1, s =>
      match s.decision_provider.get_next with
      | none => some SolverResult.Sat
      | some decision =>
          if s.should_restart then solveLoop fuel s.runRestart
          else
            match s.store_decision decision with
            | Except.error _ => none
            | Except.ok s1 =>
                match conflictLoop (fuel + 1) s1 with
                | none => none
                | some (Sum.inr r) => some r
                | some (Sum.inl s2) => solveLoop fuel s2

/-- Solver::internal_solve (solver.rs 193-223). -/
def Solver.internal_solve (s : Solver) (fuel : Nat) : Option SolverResult :=
  if s.trivially_unsat then some SolverResult.Unsat
  else
    match unitPropagate fuel s with
    | none => none
    | some (_, some _) => some SolverResult.Unsat
    | some (s1, none) => solveLoop fuel s1

/-- The empty solver, Solver::new (solver.rs 121-139). -/
def Solver.newSolver : Solver :=
  ⟨false, 0, [], [], ⟨[]⟩, (100, 100, 100), fun _ => none, fun _ => none,
    fun _ => none, [], [], fun _ => [], []⟩

/-- Solver::add_clause (solver.rs 151-179). -/
def Solver.add_clause (s : Solver) (literals : List Int) : Solver :=
  if s.trivially_unsat then s
  else if literals.isEmpty then { s with trivially_unsat := true }
  else
    let clause := Clause.new literals
    let s1 := { s with
      decision_provider := s.decision_provider.new_clause clause.literals }
    let wl1 := clause.watched_literals.1
    let wl2 := clause.watched_literals.2
    let cid := s1.clauses.length
    let s2 := { s1 with clauses := s1.clauses ++ [clause] }
    let s3 := { s2 with watches := fun i =>
      if i = wl1.index then s2.watches i ++ [cid] else s2.watches i }
    if wl1 ≠ wl2 then
      { s3 with watches := fun i =>
        if i = wl2.index then s3.watches i ++ [cid] else s3.watches i }
    else
      match s3.store_assignment wl1 (some cid) with
      | Except.error _ => { s3 with trivially_unsat := true }
      | Except.ok s4 => s4

/-- Solver::from_dimacs (solver.rs 141-149): insert every input clause
into a fresh solver. -/
def Solver.from_dimacs (clauses : List (List Int)) : Solver :=
  clauses.foldl Solver.add_clause Solver.newSolver

/-- Solver::solve on a parsed DIMACS clause list (solver.rs 185-191
composed with from_dimacs). -/
def solveDimacs (clauses : List (List Int)) (fuel : Nat) :
    Option SolverResult :=
  (Solver.from_dimacs clauses).internal_solve fuel

end Rustasata

namespace Rustasata

theorem argmaxFold_some (f : Nat × Literal → Nat) :
    ∀ (l : List (Nat × Literal)) (b : Nat × Literal),
      ∃ r, l.foldl (argmaxStep f) (some b) = some r ∧
        (r = b ∨ r ∈ l) ∧ f b ≤ f r ∧ ∀ p ∈ l, f p ≤ f r
  | [], b => ⟨b, rfl, Or.inl rfl, le_refl _, by simp⟩
  | p :: rest, b => by
      by_cases hc : f p > f b
      · obtain ⟨r, hr, hrmem, hble, hall⟩ := argmaxFold_some f rest p
        refine ⟨r, ?_, ?_, le_trans (le_of_lt hc) hble, ?_⟩
        · simpa [List.foldl_cons, argmaxStep, hc] using hr
        · rcases hrmem with h | h
          · exact Or.inr (by simp [h])
          · exact Or.inr (List.mem_cons_of_mem _ h)
        · intro q hq
          rcases List.mem_cons.mp hq with h | h
          · rw [h]
            exact hble
          · exact hall q h
      · obtain ⟨r, hr, hrmem, hble, hall⟩ := argmaxFold_some f rest b
        refine ⟨r, ?_, ?_, hble, ?_⟩
        · simpa [List.foldl_cons, argmaxStep, hc] using hr
        · rcases hrmem with h | h
          · exact Or.inl h
          · exact Or.inr (List.mem_cons_of_mem _ h)
        · intro q hq
          rcases List.mem_cons.mp hq with h | h
          · rw [h]
            exact le_trans (not_lt.mp hc) hble
          · exact hall q h

theorem argmaxFold_nonempty (f : Nat × Literal → Nat) (l : List (Nat × Literal))
    (hl : l ≠ []) :
    ∃ r, l.foldl (argmaxStep f) none = some r ∧ r ∈ l ∧
      ∀ p ∈ l, f p ≤ f r := by
  match l with
  | [] => exact absurd rfl hl
  | p :: rest =>
      obtain ⟨r, hr, hrmem, hble, hall⟩ := argmaxFold_some f rest p
      refine ⟨r, by simpa [List.foldl_cons, argmaxStep] using hr, ?_, ?_⟩
      · rcases hrmem with h | h
        · rw [h]
          exact List.mem_cons_self p rest
        · exact List.mem_cons_of_mem _ h
      · intro q hq
        rcases List.mem_cons.mp hq with h | h
        · rw [h]
          exact hble
        · exact hall q h

end Rustasata

namespace Rustasata

theorem store_assignment_frame (s : Solver) (l : Literal)
    (c : Option ClauseId) (s2 : Solver)
    (h : s.store_assignment l c = Except.ok s2) :
    s2.watches = s.watches ∧ s2.clauses = s.clauses ∧
      s2.learned_clauses = s.learned_clauses := by
  match hv : s.assigns l.var with
  | some current =>
      simp only [Solver.store_assignment, hv] at h
      by_cases hc : (current != l.sign) = true
      · rw [if_pos hc] at h
        exact absurd h (by simp)
      · rw [if_neg hc] at h
        simp only [Except.ok.injEq] at h
        rw [← h]
        exact ⟨rfl, rfl, rfl⟩
  | none =>
      match c with
      | some cid =>
          simp only [Solver.store_assignment, hv, Except.ok.injEq] at h
          rw [← h]
          exact ⟨rfl, rfl, rfl⟩
      | none =>
          simp only [Solver.store_assignment, hv, Except.ok.injEq] at h
          rw [← h]
          exact ⟨rfl, rfl, rfl⟩

/-- C4 (with the spec-modelled Clause::from_literals, whose definition
is absent from the snapshot): a learned clause of length ≥ 2 built from
the (deduplicated) learned literals has the asserting literal in its
first watched slot and a maximal-level other literal in its second; a
length-1 learned clause has both watched slots on its single literal;
and add_learned_clause registers the installed clause in the watch
lists of both watched literals (of the one literal when they
coincide). -/
theorem learned_clause_watched_spec (lits : List Literal) (unit : Literal)
    (level : Nat → Option Nat) (l0 : Literal) (s : Solver) (clause : Clause)
    (u2 : Literal) (s2 : Solver)
    (hmem : unit ∈ lits) (hlen : 2 ≤ lits.length) (hnodup : lits.Nodup)
    (hinstall : s.add_learned_clause clause u2 = Except.ok s2) :
    ((Clause.from_literals lits unit level).watched_literals.1 = unit ∧
     ∃ m, (Clause.from_literals lits unit level).watched_literals.2 = m ∧
       m ∈ lits ∧ m ≠ unit ∧
       ∀ x ∈ lits, x ≠ unit →
         (level x.var).getD 0 ≤ (level m.var).getD 0) ∧
    (Clause.from_literals [l0] unit level).watched_literals = (l0, l0) ∧
    (s2.clauses.getD s.clauses.length emptyClause = clause ∧
     s.clauses.length ∈ s2.watches clause.watched_literals.1.index ∧
     (clause.watched_literals.1 ≠ clause.watched_literals.2 →
       s.clauses.length ∈ s2.watches clause.watched_literals.2.index)) := by
  have hnle : ¬ lits.length ≤ 1 := by omega
  have hidxlt : lits.indexOf unit < lits.length :=
    List.indexOf_lt_length.mpr hmem
  have hgetU : lits.getD (lits.indexOf unit) ⟨0⟩ = unit := by
    rw [List.getD_eq_getElem _ _ hidxlt]
    exact List.getElem_indexOf hidxlt
  refine ⟨⟨?_, ?_⟩, ?_, ?_⟩
  · simp only [Clause.from_literals, if_neg hnle, Clause.watched_literals]
    exact hgetU
  · -- the second watched slot holds a maximal-level other literal
    have hothers : lits.enum.filter
        (fun p => p.1 ≠ lits.indexOf unit) ≠ [] := by
      -- some position other than indexOf unit exists since length ≥ 2
      have hpos : ∃ j, j < lits.length ∧ j ≠ lits.indexOf unit := by
        by_cases hj : lits.indexOf unit = 0
        · exact ⟨1, by omega, by omega⟩
        · exact ⟨0, by omega, fun hh => hj hh.symm⟩
      obtain ⟨j, hjlt, hjne⟩ := hpos
      intro hempty
      have hjmem : (j, lits.getD j ⟨0⟩) ∈ lits.enum.filter
          (fun p => p.1 ≠ lits.indexOf unit) := by
        rw [List.mem_filter]
        constructor
        · rw [List.mem_enum_iff_getElem?]
          rw [List.getD_eq_getElem _ _ hjlt]
          exact (List.getElem?_eq_getElem hjlt)
        · simpa using hjne
      rw [hempty] at hjmem
      exact absurd hjmem (by simp)
    obtain ⟨r, hr, hrmem, hrmax⟩ := argmaxFold_nonempty
      (fun p => (level p.2.var).getD 0)
      (lits.enum.filter (fun p => p.1 ≠ lits.indexOf unit)) hothers
    have hrfil := List.mem_filter.mp hrmem
    have hrenum := List.mem_enum_iff_getElem?.mp hrfil.1
    have hrlt : r.1 < lits.length := by
      by_contra hge
      rw [List.getElem?_eq_none (by omega)] at hrenum
      exact absurd hrenum (by simp)
    have hrget : lits.getD r.1 ⟨0⟩ = r.2 := by
      rw [List.getD_eq_getElem _ _ hrlt]
      rw [List.getElem?_eq_getElem hrlt] at hrenum
      simpa using hrenum
    have hrne : r.1 ≠ lits.indexOf unit := by simpa using hrfil.2
    refine ⟨r.2, ?_, ?_, ?_, ?_⟩
    · simp only [Clause.from_literals, if_neg hnle, Clause.watched_literals]
      rw [hr]
      simpa using hrget
    · rw [← hrget, List.getD_eq_getElem _ _ hrlt]
      exact List.getElem_mem _
    · intro heq
      apply hrne
      have h1 : lits[r.1] = lits[lits.indexOf unit] := by
        rw [List.getElem_indexOf hidxlt]
        rw [List.getD_eq_getElem _ _ hrlt] at hrget
        rw [hrget, heq]
      exact (List.Nodup.getElem_inj_iff hnodup).mp h1
    · intro x hx hxne
      obtain ⟨j, hjlt, hjget⟩ := List.mem_iff_getElem.mp hx
      have hjne : j ≠ lits.indexOf unit := by
        intro hh
        apply hxne
        subst hh
        exact hjget.symm.trans (List.getElem_indexOf hidxlt)
      have hjmem : (j, x) ∈ lits.enum.filter
          (fun p => p.1 ≠ lits.indexOf unit) := by
        rw [List.mem_filter]
        refine ⟨?_, by simpa using hjne⟩
        rw [List.mem_enum_iff_getElem?]
        rw [List.getElem?_eq_getElem hjlt]
        simpa using hjget
      exact hrmax (j, x) hjmem
  · simp only [Clause.from_literals]
    rfl
  · simp only [Solver.add_learned_clause, Solver.store_consequence]
      at hinstall
    obtain ⟨hw, hc, _⟩ := store_assignment_frame _ _ _ _ hinstall
    by_cases hne : clause.watched_literals.1 ≠ clause.watched_literals.2
    · rw [if_pos hne] at hw hc
      refine ⟨?_, ?_, fun _ => ?_⟩
      · rw [hc]
        simp
      · rw [hw]
        by_cases hii : clause.watched_literals.1.index
            = clause.watched_literals.2.index
        · simp [hii]
        · simp [hii]
      · rw [hw]
        simp
    · rw [if_neg hne] at hw hc
      refine ⟨?_, ?_, fun hcontra => absurd hcontra hne⟩
      · rw [hc]
        simp
      · rw [hw]
        simp

/-- A concrete learned clause and the state resulting from installing
it into a fresh solver. -/
def c4Clause : Clause := ⟨(0, 1), [⟨1⟩, ⟨2⟩]⟩

/-- The solver state after installing c4Clause with asserting literal 1
into a fresh solver (the installation succeeds). -/
def c4Installed : Solver :=
  match Solver.newSolver.add_learned_clause c4Clause ⟨1⟩ with
  | Except.ok s2 => s2
  | Except.error _ => Solver.newSolver

/-- C4 witness: the watched-slot theorem applied to the learned literal
list [1, 2] with asserting literal 2 under the empty level map, the
singleton clause [5], and the concrete installation of c4Clause. -/
theorem learned_clause_watched_spec_witness :
    ((Clause.from_literals [⟨1⟩, ⟨2⟩] ⟨2⟩ (fun _ => none)).watched_literals.1
        = ⟨2⟩ ∧
     ∃ m, (Clause.from_literals [⟨1⟩, ⟨2⟩] ⟨2⟩
          (fun _ => none)).watched_literals.2 = m ∧
       m ∈ [(⟨1⟩ : Literal), ⟨2⟩] ∧ m ≠ ⟨2⟩ ∧
       ∀ x ∈ [(⟨1⟩ : Literal), ⟨2⟩], x ≠ ⟨2⟩ →
         ((fun (_ : Nat) => (none : Option Nat)) x.var).getD 0 ≤
           ((fun (_ : Nat) => (none : Option Nat)) m.var).getD 0) ∧
    (Clause.from_literals [⟨5⟩] ⟨2⟩ (fun _ => none)).watched_literals
        = (⟨5⟩, ⟨5⟩) ∧
    (c4Installed.clauses.getD Solver.newSolver.clauses.length emptyClause
        = c4Clause ∧
     Solver.newSolver.clauses.length
        ∈ c4Installed.watches c4Clause.watched_literals.1.index ∧
     (c4Clause.watched_literals.1 ≠ c4Clause.watched_literals.2 →
       Solver.newSolver.clauses.length
          ∈ c4Installed.watches c4Clause.watched_literals.2.index)) :=
  learned_clause_watched_spec [⟨1⟩, ⟨2⟩] ⟨2⟩ (fun _ => none) ⟨5⟩
    Solver.newSolver c4Clause ⟨1⟩ c4Installed
    (by decide) (by decide) (by decide) rfl

end Rustasata

namespace Rustasata

theorem selectInner_nomatch (h : Nat → Bool) (cur : Literal) :
    ∀ (learned : List Literal) (acc : Option Literal),
      (∀ le ∈ learned, le.var ≠ cur.var) →
      selectInner h cur learned acc = Sum.inr acc
  | [], acc, _ => rfl
  | le :: rest, acc, hno => by
      unfold selectInner
      rw [if_neg (hno le (List.mem_cons_self le rest))]
      exact selectInner_nomatch h cur rest acc
        (fun y hy => hno y (List.mem_cons_of_mem _ hy))

theorem selectInner_some_err (h : Nat → Bool) (cur rlit : Literal)
    (hr : h rlit.var = true) :
    ∀ (learned : List Literal),
      (∃ le ∈ learned, le.var = cur.var) →
      selectInner h cur learned (some rlit) = Sum.inl rlit
  | [], hex => by
      obtain ⟨le, hle, _⟩ := hex
      exact absurd hle (by simp)
  | le :: rest, hex => by
      by_cases hm : le.var = cur.var
      · unfold selectInner
        rw [if_pos hm]
        simp [hr]
      · unfold selectInner
        rw [if_neg hm]
        apply selectInner_some_err h cur rlit hr rest
        obtain ⟨le2, hle2, hv2⟩ := hex
        rcases List.mem_cons.mp hle2 with hh | hh
        · rw [hh] at hv2
          exact absurd hv2 hm
        · exact ⟨le2, hh, hv2⟩

theorem selectInner_none_unique (h : Nat → Bool) (cur le1 : Literal)
    (hv : le1.var = cur.var) :
    ∀ (learned : List Literal), le1 ∈ learned → learned.Nodup →
      (∀ y ∈ learned, y.var = cur.var → y = le1) →
      selectInner h cur learned none = Sum.inr (some le1)
  | [], hmem, _, _ => absurd hmem (by simp)
  | le :: rest, hmem, hnd, huniq => by
      by_cases hm : le.var = cur.var
      · have hle : le = le1 := huniq le (List.mem_cons_self le rest) hm
        subst hle
        unfold selectInner
        rw [if_pos hm]
        apply selectInner_nomatch
        intro y hy hyv
        have hyle : y = le := huniq y (List.mem_cons_of_mem _ hy) hyv
        rw [hyle] at hy
        exact (List.nodup_cons.mp hnd).1 hy
      · unfold selectInner
        rw [if_neg hm]
        have hmem2 : le1 ∈ rest := by
          rcases List.mem_cons.mp hmem with hh | hh
          · rw [← hh] at hm
            exact absurd hv hm
          · exact hh
        exact selectInner_none_unique h cur le1 hv rest hmem2
          (List.nodup_cons.mp hnd).2
          (fun y hy hyv => huniq y (List.mem_cons_of_mem _ hy) hyv)

theorem selectOuter_skip (h : Nat → Bool) (learned : List Literal) :
    ∀ (C r2 : List Literal) (acc : Option Literal),
      (∀ cur ∈ C, ∀ le ∈ learned, le.var ≠ cur.var) →
      selectOuter h learned (C ++ r2) acc = selectOuter h learned r2 acc
  | [], r2, acc, _ => rfl
  | cur :: rest, r2, acc, hno => by
      have hstep : selectInner h cur learned acc = Sum.inr acc :=
        selectInner_nomatch h cur learned acc
          (hno cur (List.mem_cons_self cur rest))
      have hrec := selectOuter_skip h learned rest r2 acc
        (fun c hc => hno c (List.mem_cons_of_mem _ hc))
      rw [List.cons_append]
      show (match selectInner h cur learned acc with
        | Sum.inl err => some (Except.error err)
        | Sum.inr acc2 => selectOuter h learned (rest ++ r2) acc2) =
          selectOuter h learned r2 acc
      rw [hstep]
      exact hrec

theorem selectOuter_after_ok (h : Nat → Bool) (learned : List Literal)
    (r1 : Literal) :
    ∀ (Q : List Literal),
      (∀ cur ∈ Q, ∀ le ∈ learned, le.var ≠ cur.var) →
      selectOuter h learned Q (some r1) = some (Except.ok r1)
  | [], _ => rfl
  | cur :: rest, hno => by
      have hstep : selectInner h cur learned (some r1) = Sum.inr (some r1) :=
        selectInner_nomatch h cur learned (some r1)
          (hno cur (List.mem_cons_self cur rest))
      have hrec := selectOuter_after_ok h learned r1 rest
        (fun c hc => hno c (List.mem_cons_of_mem _ hc))
      show (match selectInner h cur learned (some r1) with
        | Sum.inl err => some (Except.error err)
        | Sum.inr acc2 => selectOuter h learned rest acc2) =
          some (Except.ok r1)
      rw [hstep]
      exact hrec

theorem selectOuter_after_err (h : Nat → Bool) (learned : List Literal)
    (r1 : Literal) (hr : h r1.var = true) :
    ∀ (Q : List Literal),
      (∃ cur ∈ Q, ∃ le ∈ learned, le.var = cur.var) →
      selectOuter h learned Q (some r1) = some (Except.error r1)
  | [], hex => by
      obtain ⟨cur, hcur, _⟩ := hex
      exact absurd hcur (by simp)
  | cur :: rest, hex => by
      by_cases hm : ∃ le ∈ learned, le.var = cur.var
      · have hstep : selectInner h cur learned (some r1) = Sum.inl r1 :=
          selectInner_some_err h cur r1 hr learned hm
        show (match selectInner h cur learned (some r1) with
          | Sum.inl err => some (Except.error err)
          | Sum.inr acc2 => selectOuter h learned rest acc2) =
            some (Except.error r1)
        rw [hstep]
      · have hstep : selectInner h cur learned (some r1) = Sum.inr (some r1) := by
          apply selectInner_nomatch
          intro le hle hv
          exact hm ⟨le, hle, hv⟩
        have hex2 : ∃ c ∈ rest, ∃ le ∈ learned, le.var = c.var := by
          obtain ⟨c, hc, le, hle, hv⟩ := hex
          rcases List.mem_cons.mp hc with hh | hh
          · rw [hh] at hv
            exact absurd ⟨le, hle, hv⟩ hm
          · exact ⟨c, hh, le, hle, hv⟩
        have hrec := selectOuter_after_err h learned r1 hr rest hex2
        show (match selectInner h cur learned (some r1) with
          | Sum.inl err => some (Except.error err)
          | Sum.inr acc2 => selectOuter h learned rest acc2) =
            some (Except.error r1)
        rw [hstep]
        exact hrec

theorem first_match_decomp (learned : List Literal) :
    ∀ (r : List Literal),
      (∃ cur ∈ r, ∃ le ∈ learned, le.var = cur.var) →
      ∃ P cur1 Q le1, r = P ++ cur1 :: Q ∧
        (∀ c ∈ P, ∀ le ∈ learned, le.var ≠ c.var) ∧
        le1 ∈ learned ∧ le1.var = cur1.var
  | [], hex => by
      obtain ⟨cur, hcur, _⟩ := hex
      exact absurd hcur (by simp)
  | cur :: rest, hex => by
      by_cases hm : ∃ le ∈ learned, le.var = cur.var
      · obtain ⟨le1, hle1, hv1⟩ := hm
        exact ⟨[], cur, rest, le1, rfl, by simp, hle1, hv1⟩
      · have hex2 : ∃ c ∈ rest, ∃ le ∈ learned, le.var = c.var := by
          obtain ⟨c, hc, le, hle, hv⟩ := hex
          rcases List.mem_cons.mp hc with hh | hh
          · rw [hh] at hv
            exact absurd ⟨le, hle, hv⟩ hm
          · exact ⟨c, hh, le, hle, hv⟩
        obtain ⟨P, cur1, Q, le1, heq, hP, hle1, hv1⟩ :=
          first_match_decomp learned rest hex2
        refine ⟨cur :: P, cur1, Q, le1, by rw [heq]; rfl, ?_, hle1, hv1⟩
        intro c hc le hle hv
        rcases List.mem_cons.mp hc with hh | hh
        · rw [hh] at hv
          exact hm ⟨le, hle, hv⟩
        · exact hP c hh le hle hv

theorem falsified_unique_var (σ : Nat → Option Bool) (x y : Literal)
    (hx : x.falsified_by (σ x.var) = true)
    (hy : y.falsified_by (σ y.var) = true)
    (hv : x.var = y.var) : x = y := by
  rw [hv] at hx
  cases hσ : σ y.var with
  | none =>
      rw [hσ] at hx
      exact absurd hx (by simp [Literal.falsified_by])
  | some b =>
      rw [hσ] at hx hy
      simp only [Literal.falsified_by, bne_iff_ne, ne_eq, decide_eq_true_eq] at hx hy
      have hs : x.sign = y.sign := by
        cases hb : b <;> cases hsx : x.sign <;> cases hsy : y.sign <;>
          simp_all
      cases x with
  | mk xv =>
      cases y with
  | mk yv =>
      simp only [Literal.var] at hv
      simp only [Literal.sign] at hs
      simp only [Literal.mk.injEq]
      by_cases hpx : (0 : Int) < xv <;> by_cases hpy : (0 : Int) < yv <;>
        simp [hpx, hpy] at hs ⊢ <;> omega

theorem filter_eq_singleton (p : Literal → Bool) :
    ∀ (l : List Literal) (a : Literal), a ∈ l → l.Nodup →
      (∀ y ∈ l, (p y = true ↔ y = a)) → l.filter p = [a]
  | [], a, hmem, _, _ => absurd hmem (by simp)
  | x :: rest, a, hmem, hnd, hiff => by
      by_cases hxa : x = a
      · subst hxa
        rw [List.filter_cons_of_pos ((hiff x (List.mem_cons_self x rest)).mpr rfl)]
        have hrest : rest.filter p = [] := by
          rw [List.filter_eq_nil]
          intro y hy
          intro hp
          have hya : y = x := (hiff y (List.mem_cons_of_mem _ hy)).mp hp
          rw [hya] at hy
          exact (List.nodup_cons.mp hnd).1 hy
        rw [hrest]
      · have hpx : p x = false := by
          cases hp : p x
          · rfl
          · exact absurd ((hiff x (List.mem_cons_self x rest)).mp hp) hxa
        rw [List.filter_cons_of_neg (by simp [hpx])]
        have hmem2 : a ∈ rest := by
          rcases List.mem_cons.mp hmem with hh | hh
          · exact absurd hh.symm hxa
          · exact hh
        exact filter_eq_singleton p rest a hmem2 (List.nodup_cons.mp hnd).2
          (fun y hy => hiff y (List.mem_cons_of_mem _ hy))

theorem resolve_nodup (alits blits : List Literal) (p : Literal) :
    (Solver.resolve alits blits p).Nodup := by
  have hp := resolve_pairwise alits blits p
  exact hp.imp fun hab => fun he => by
    rw [he] at hab
    exact lt_irrefl _ hab

end Rustasata

namespace Rustasata

/-- Termination and single-asserting-literal lemma for the
conflict-analysis loop.  r0 is the current-decision-level trail segment
in reverse chronological order (most recent literal first); the loop
runs with every current-level variable of the learned set inside the
suffix r of r0 = C ++ r, and each resolution moves strictly deeper into
the segment, so fuel exceeding the suffix length suffices. -/
theorem learnLoop_suffix (hasReason : Nat → Bool)
    (reasonLits : Nat → Option (List Literal)) (σ : Nat → Option Bool)
    (r0 : List Literal)
    (hcons : ∀ v, hasReason v = (reasonLits v).isSome)
    (hdist : (r0.map Literal.var).Nodup)
    (hreas : ∀ (C D : List Literal) (cur : Literal), r0 = C ++ cur :: D →
      D ≠ [] → hasReason cur.var = true)
    (hante : ∀ (C D : List Literal) (cur : Literal), r0 = C ++ cur :: D →
      ∀ R, reasonLits cur.var = some R → ∀ x ∈ R, x.var ≠ cur.var →
        x.falsified_by (σ x.var) = true ∧
        (x.var ∈ r0.map Literal.var → x.var ∈ D.map Literal.var)) :
    ∀ (fuel : Nat) (C r learned : List Literal),
      r0 = C ++ r → r.length < fuel →
      learned.Nodup →
      (∀ x ∈ learned, x.falsified_by (σ x.var) = true) →
      (∀ cur ∈ C, ∀ le ∈ learned, le.var ≠ cur.var) →
      (∃ x ∈ learned, x.var ∈ r.map Literal.var) →
      ∃ L u, learnLoop hasReason reasonLits r0.reverse fuel learned
          = some (L, u) ∧
        u ∈ L ∧ u.var ∈ r.map Literal.var ∧
        L.filter (fun l => l.var ∈ r0.map Literal.var) = [u] := by
  intro fuel
  induction fuel with
  | zero =>
      intro C r learned _ hflt
      exact absurd hflt (by omega)
  | succ F ih =>
      intro C r learned heq hflt hnd hfal hskip hmatch
      -- the learned set holds at most one literal per variable
      have huniq : ∀ a ∈ learned, ∀ b ∈ learned, a.var = b.var → a = b :=
        fun a ha b hb hv =>
          falsified_unique_var σ a b (hfal a ha) (hfal b hb) hv
      -- decompose r at its first matching element
      have hex : ∃ cur ∈ r, ∃ le ∈ learned, le.var = cur.var := by
        obtain ⟨x, hx, hxv⟩ := hmatch
        obtain ⟨cur, hcur, hcv⟩ := List.mem_map.mp hxv
        exact ⟨cur, hcur, x, hx, hcv.symm⟩
      obtain ⟨P, cur1, Q, le1, hdec, hPno, hle1, hv1⟩ :=
        first_match_decomp learned r hex
      have huniq1 : ∀ y ∈ learned, y.var = cur1.var → y = le1 :=
        fun y hy hyv => huniq y hy le1 hle1 (by rw [hyv, hv1])
      -- the select call walks r0 and reaches Q carrying le1
      have hsel : select_resolution_literal hasReason learned r0.reverse
          = selectOuter hasReason learned Q (some le1) := by
        unfold select_resolution_literal
        rw [List.reverse_reverse, heq, hdec,
          selectOuter_skip hasReason learned C _ none hskip,
          selectOuter_skip hasReason learned P _ none hPno]
        show (match selectInner hasReason cur1 learned none with
          | Sum.inl err => some (Except.error err)
          | Sum.inr acc2 => selectOuter hasReason learned Q acc2) = _
        rw [selectInner_none_unique hasReason cur1 le1 hv1 learned hle1
          hnd huniq1]
      -- variable-disjointness facts along r0 = C ++ P ++ cur1 :: Q
      have hmapeq : r0.map Literal.var
          = (C.map Literal.var ++ P.map Literal.var)
            ++ (cur1.var :: Q.map Literal.var) := by
        rw [heq, hdec]
        simp [List.map_append]
      have hnd2 : ((C.map Literal.var ++ P.map Literal.var)
          ++ (cur1.var :: Q.map Literal.var)).Nodup := by
        rw [← hmapeq]
        exact hdist
      have hdisj := (List.nodup_append.mp hnd2).2.2
      have hcur1Q : cur1.var ∉ Q.map Literal.var := by
        have := (List.nodup_append.mp hnd2).2.1
        exact (List.nodup_cons.mp this).1
      by_cases hQ : ∃ cur ∈ Q, ∃ le ∈ learned, le.var = cur.var
      · -- a second match exists: the loop resolves on le1 and recurses
        have hQne : Q ≠ [] := by
          obtain ⟨cur, hcur, _⟩ := hQ
          intro hqe
          rw [hqe] at hcur
          exact absurd hcur (by simp)
        have hr1 : hasReason cur1.var = true :=
          hreas (C ++ P) Q cur1 (by rw [heq, hdec]; simp) hQne
        have hrle1 : hasReason le1.var = true := by rw [hv1]; exact hr1
        have hselE : select_resolution_literal hasReason learned r0.reverse
            = some (Except.error le1) := by
          rw [hsel]
          exact selectOuter_after_err hasReason learned le1 hrle1 Q hQ
        obtain ⟨R, hR⟩ : ∃ R, reasonLits le1.var = some R := by
          have := hcons le1.var
          rw [hrle1] at this
          exact Option.isSome_iff_exists.mp this.symm
        have hanteR := hante (C ++ P) Q cur1 (by rw [heq, hdec]; simp) R
          (by rw [← hv1]; exact hR)
        -- invariants for the resolved learned set
        have hres := fun l => mem_resolve learned R le1 l
        have hnd3 : (Solver.resolve learned R le1).Nodup :=
          resolve_nodup learned R le1
        have hfal3 : ∀ x ∈ Solver.resolve learned R le1,
            x.falsified_by (σ x.var) = true := by
          intro x hx
          obtain ⟨hor, hne⟩ := (hres x).mp hx
          rcases hor with hxl | hxR
          · exact hfal x hxl
          · exact (hanteR x hxR (by rw [← hv1]; exact hne)).1
        have hskip3 : ∀ cur ∈ C ++ (P ++ [cur1]),
            ∀ le ∈ Solver.resolve learned R le1, le.var ≠ cur.var := by
          intro cur hcur le hle
          obtain ⟨hor, hne⟩ := (hres le).mp hle
          rcases List.mem_append.mp hcur with hcC | hcP1
          · rcases hor with hxl | hxR
            · exact hskip cur hcC le hxl
            · intro hveq
              have hpos := (hanteR le hxR (by rw [← hv1]; exact hne)).2
              by_cases hin : le.var ∈ r0.map Literal.var
              · have hinQ := hpos hin
                have hinC : le.var ∈ C.map Literal.var := by
                  rw [hveq]
                  exact List.mem_map_of_mem _ hcC
                exact hdisj (List.mem_append.mpr (Or.inl hinC)) (List.mem_cons_of_mem _ hinQ)
              · apply hin
                rw [hveq, hmapeq]
                refine List.mem_append.mpr (Or.inl ?_)
                exact List.mem_append.mpr (Or.inl (List.mem_map_of_mem _ hcC))
          · rcases List.mem_append.mp hcP1 with hcP | hc1
            · rcases hor with hxl | hxR
              · intro hveq
                exact hPno cur hcP le hxl hveq
              · intro hveq
                have hpos := (hanteR le hxR (by rw [← hv1]; exact hne)).2
                by_cases hin : le.var ∈ r0.map Literal.var
                · have hinQ := hpos hin
                  have hinP : le.var ∈ P.map Literal.var := by
                    rw [hveq]
                    exact List.mem_map_of_mem _ hcP
                  exact hdisj (List.mem_append.mpr (Or.inr hinP)) (List.mem_cons_of_mem _ hinQ)
                · apply hin
                  rw [hveq, hmapeq]
                  refine List.mem_append.mpr (Or.inl ?_)
                  exact List.mem_append.mpr
                    (Or.inr (List.mem_map_of_mem _ hcP))
            · have hc1e : cur = cur1 := by simpa using hc1
              rw [hc1e, ← hv1]
              exact hne
        have hmatch3 : ∃ x ∈ Solver.resolve learned R le1,
            x.var ∈ Q.map Literal.var := by
          obtain ⟨cur2, hcur2, le2, hle2, hv2⟩ := hQ
          refine ⟨le2, (hres le2).mpr ⟨Or.inl hle2, ?_⟩, ?_⟩
          · rw [hv2, hv1]
            intro hveq
            apply hcur1Q
            rw [← hveq]
            exact List.mem_map_of_mem _ hcur2
          · rw [hv2]
            exact List.mem_map_of_mem _ hcur2
        have hlen3 : Q.length < F := by
          have : r.length = P.length + 1 + Q.length := by
            rw [hdec]
            simp
            omega
          omega
        obtain ⟨L, u, hloop, huL, huv, hfilter⟩ := ih (C ++ (P ++ [cur1])) Q
          (Solver.resolve learned R le1)
          (by rw [heq, hdec]; simp) hlen3 hnd3 hfal3 hskip3 hmatch3
        refine ⟨L, u, ?_, huL, ?_, hfilter⟩
        · calc learnLoop hasReason reasonLits r0.reverse (F + 1) learned
              = (match select_resolution_literal hasReason learned
                    r0.reverse with
                | none => none
                | some (Except.ok unique) => some (learned, unique)
                | some (Except.error non_unique) =>
                    match reasonLits non_unique.var with
                    | none => none
                    | some antecedent =>
                        learnLoop hasReason reasonLits r0.reverse F
                          (Solver.resolve learned antecedent non_unique)) :=
                rfl
            _ = (match reasonLits le1.var with
                | none => none
                | some antecedent =>
                    learnLoop hasReason reasonLits r0.reverse F
                      (Solver.resolve learned antecedent le1)) := by
                rw [hselE]
            _ = learnLoop hasReason reasonLits r0.reverse F
                  (Solver.resolve learned R le1) := by rw [hR]
            _ = some (L, u) := hloop
        · rw [hdec]
          simp only [List.map_append, List.map_cons]
          refine List.mem_append.mpr (Or.inr ?_)
          exact List.mem_cons_of_mem _ huv
      · -- le1 is the unique current-level literal: the loop returns it
        have hselO : select_resolution_literal hasReason learned r0.reverse
            = some (Except.ok le1) := by
          rw [hsel]
          apply selectOuter_after_ok
          intro cur hcur le hle hveq
          exact hQ ⟨cur, hcur, le, hle, hveq⟩
        refine ⟨learned, le1, ?_, hle1, ?_, ?_⟩
        · show (match select_resolution_literal hasReason learned
              r0.reverse with
            | none => none
            | some (Except.ok unique) => some (learned, unique)
            | some (Except.error non_unique) =>
                match reasonLits non_unique.var with
                | none => none
                | some antecedent =>
                    learnLoop hasReason reasonLits r0.reverse F
                      (Solver.resolve learned antecedent non_unique)) = _
          rw [hselO]
        · rw [hv1, hdec]
          simp only [List.map_append, List.map_cons]
          refine List.mem_append.mpr (Or.inr ?_)
          exact List.mem_cons_self _ _
        · apply filter_eq_singleton _ learned le1 hle1 hnd
          intro y hy
          simp only [decide_eq_true_eq]
          constructor
          · intro hyin
            apply huniq1 y hy
            rw [hmapeq] at hyin
            rcases List.mem_append.mp hyin with hCP | hc1Q
            · rcases List.mem_append.mp hCP with hC | hP
              · obtain ⟨c, hc, hcv⟩ := List.mem_map.mp hC
                exact absurd hcv.symm (hskip c hc y hy)
              · obtain ⟨c, hc, hcv⟩ := List.mem_map.mp hP
                exact absurd hcv.symm (hPno c hc y hy)
            · rcases List.mem_cons.mp hc1Q with hc1 | hQv
              · exact hc1
              · obtain ⟨c, hc, hcv⟩ := List.mem_map.mp hQv
                exact absurd ⟨c, hc, y, hy, hcv.symm⟩ hQ
          · intro hye
            rw [hye, hv1, hmapeq]
            refine List.mem_append.mpr (Or.inr ?_)
            exact List.mem_cons_self _ _

end Rustasata

namespace Rustasata

theorem from_literals_literals (lits : List Literal) (u : Literal)
    (lvl : Nat → Option Nat) :
    (Clause.from_literals lits u lvl).literals = lits := by
  unfold Clause.from_literals
  split_ifs <;> rfl

theorem getClauseToLearnAux (s : Solver) (conflict : ClauseId)
    (cut : Nat) (fuel : Nat)
    (hcut : s.trail_lim.getLast? = some cut)
    (hfuel : (s.trail.drop cut).length < fuel)
    (hsegdist : ((s.trail.drop cut).map Literal.var).Nodup)
    (hsegreason : ∀ (A B : List Literal) (curlit : Literal),
      s.trail.drop cut = A ++ curlit :: B → A ≠ [] →
      (s.reason curlit.var).isSome = true)
    (hsegante : ∀ (A B : List Literal) (curlit : Literal),
      s.trail.drop cut = A ++ curlit :: B →
      ∀ cid, s.reason curlit.var = some cid →
      ∀ x ∈ (s.clauses.getD cid emptyClause).literals, x.var ≠ curlit.var →
        x.falsified_by (s.assigns x.var) = true ∧
        (x.var ∈ (s.trail.drop cut).map Literal.var →
          x.var ∈ A.map Literal.var))
    (hc0nd : (s.clauses.getD conflict emptyClause).literals.Nodup)
    (hc0fal : ∀ x ∈ (s.clauses.getD conflict emptyClause).literals,
      x.falsified_by (s.assigns x.var) = true)
    (hc0match : ∃ x ∈ (s.clauses.getD conflict emptyClause).literals,
      x.var ∈ (s.trail.drop cut).map Literal.var)
    (hlvl : ∀ v, s.level v = some s.trail_lim.length ↔
      v ∈ (s.trail.drop cut).map Literal.var) :
    ∃ clause unit, s.get_clause_to_learn conflict fuel
        = some (clause, unit) ∧
      unit ∈ clause.literals ∧
      s.level unit.var = some s.trail_lim.length ∧
      clause.literals.filter
          (fun l => s.level l.var = some s.trail_lim.length) = [unit] := by
  have hrevrev : ((s.trail.drop cut).reverse).reverse = s.trail.drop cut :=
    List.reverse_reverse _
  have hmemrev : ∀ v, v ∈ ((s.trail.drop cut).reverse).map Literal.var ↔
      v ∈ (s.trail.drop cut).map Literal.var := by
    intro v
    rw [List.map_reverse, List.mem_reverse]
  obtain ⟨L, u, hloop, huL, huv, hfilter⟩ :=
    learnLoop_suffix (fun v => (s.reason v).isSome)
      (fun v => (s.reason v).map fun cid =>
        (s.clauses.getD cid emptyClause).literals)
      s.assigns ((s.trail.drop cut).reverse)
      (fun v => by cases hrv : s.reason v <;> simp [hrv])
      (by rw [List.map_reverse]; exact List.nodup_reverse.mpr hsegdist)
      (by
        intro C D cur hr0 hDne
        apply hsegreason D.reverse C.reverse cur
        · rw [← hrevrev, hr0]
          simp [List.reverse_append]
        · intro hDrev
          apply hDne
          rw [← List.reverse_reverse D, hDrev]
          rfl)
      (by
        intro C D cur hr0 R hRL x hx hxv
        obtain ⟨cid, hcid, hcidR⟩ := Option.map_eq_some'.mp hRL
        have hres := hsegante D.reverse C.reverse cur
          (by rw [← hrevrev, hr0]; simp [List.reverse_append]) cid hcid x
          (by rw [hcidR]; exact hx) hxv
        refine ⟨hres.1, fun hin => ?_⟩
        have hin2 := hres.2 ((hmemrev x.var).mp hin)
        rw [List.map_reverse, List.mem_reverse] at hin2
        exact hin2)
      fuel [] ((s.trail.drop cut).reverse)
      (s.clauses.getD conflict emptyClause).literals
      (by simp) (by simpa using hfuel) hc0nd hc0fal (by simp)
      (by
        obtain ⟨x, hx, hxv⟩ := hc0match
        exact ⟨x, hx, (hmemrev x.var).mpr hxv⟩)
  refine ⟨Clause.from_literals L u s.level, u, ?_, ?_, ?_, ?_⟩
  · show (match s.trail_lim.getLast? with
      | none => none
      | some cut2 =>
          match learnLoop (fun v => (s.reason v).isSome)
              (fun v => (s.reason v).map fun cid =>
                (s.clauses.getD cid emptyClause).literals)
              (s.trail.drop cut2) fuel
              (s.clauses.getD conflict emptyClause).literals with
          | none => none
          | some (learned, unique) =>
              some (Clause.from_literals learned unique s.level, unique)) = _
    rw [hcut]
    show (match learnLoop (fun v => (s.reason v).isSome)
        (fun v => (s.reason v).map fun cid =>
          (s.clauses.getD cid emptyClause).literals)
        (s.trail.drop cut) fuel
        (s.clauses.getD conflict emptyClause).literals with
      | none => none
      | some (learned, unique) =>
          some (Clause.from_literals learned unique s.level, unique)) = _
    rw [hrevrev] at hloop
    rw [hloop]
  · rw [from_literals_literals]
    exact huL
  · exact (hlvl u.var).mpr ((hmemrev u.var).mp huv)
  · rw [from_literals_literals]
    have hfeq : L.filter
        (fun l => s.level l.var = some s.trail_lim.length)
        = L.filter (fun l =>
          l.var ∈ ((s.trail.drop cut).reverse).map Literal.var) := by
      apply List.filter_congr
      intro y _
      simp only [decide_eq_true_eq, decide_eq_decide]
      rw [hmemrev]
      exact hlvl y.var
    rw [hfeq]
    exact hfilter

/-- C6: under the reachable-state invariants at a conflict at decision
level d ≥ 1 — the current-level trail segment has distinct variables,
every segment literal except the level's decision has a reason clause,
each reason clause's other literals are falsified and assigned strictly
earlier in the segment or below it, and the conflict clause is
deduplicated, fully falsified, and mentions a current-level variable —
the conflict-analysis loop of get_clause_to_learn terminates within
fuel exceeding the segment length, and the learned clause contains
exactly one literal at level d, the asserting literal. -/
theorem get_clause_to_learn_terminates (s : Solver) (conflict : ClauseId)
    (cut : Nat) (fuel : Nat)
    (hcut : s.trail_lim.getLast? = some cut)
    (hfuel : (s.trail.drop cut).length < fuel)
    (hsegdist : ((s.trail.drop cut).map Literal.var).Nodup)
    (hsegreason : ∀ (A B : List Literal) (curlit : Literal),
      s.trail.drop cut = A ++ curlit :: B → A ≠ [] →
      (s.reason curlit.var).isSome = true)
    (hsegante : ∀ (A B : List Literal) (curlit : Literal),
      s.trail.drop cut = A ++ curlit :: B →
      ∀ cid, s.reason curlit.var = some cid →
      ∀ x ∈ (s.clauses.getD cid emptyClause).literals, x.var ≠ curlit.var →
        x.falsified_by (s.assigns x.var) = true ∧
        (x.var ∈ (s.trail.drop cut).map Literal.var →
          x.var ∈ A.map Literal.var))
    (hc0nd : (s.clauses.getD conflict emptyClause).literals.Nodup)
    (hc0fal : ∀ x ∈ (s.clauses.getD conflict emptyClause).literals,
      x.falsified_by (s.assigns x.var) = true)
    (hc0match : ∃ x ∈ (s.clauses.getD conflict emptyClause).literals,
      x.var ∈ (s.trail.drop cut).map Literal.var)
    (hlvl : ∀ v, s.level v = some s.trail_lim.length ↔
      v ∈ (s.trail.drop cut).map Literal.var) :
    ∃ clause unit, s.get_clause_to_learn conflict fuel
        = some (clause, unit) ∧
      unit ∈ clause.literals ∧
      s.level unit.var = some s.trail_lim.length ∧
      clause.literals.filter
          (fun l => s.level l.var = some s.trail_lim.length) = [unit] :=
  getClauseToLearnAux s conflict cut fuel hcut hfuel hsegdist hsegreason
    hsegante hc0nd hc0fal hc0match hlvl

/-- A concrete solver state at a decision-level-1 conflict: decision 1,
consequence 2 forced by the clause [-1, 2] (arena id 0), and the clause
[-1, -2] (arena id 1) falsified. -/
def c6State : Solver :=
  { trivially_unsat := false, conflicts := 0, learned_clauses := [],
    bcp_queue := [], decision_provider := ⟨[]⟩, restart := (100, 100, 100),
    assigns := fun v => if v = 1 then some true else
      if v = 2 then some true else none,
    reason := fun v => if v = 2 then some 0 else none,
    level := fun v => if v = 1 then some 1 else
      if v = 2 then some 1 else none,
    trail := [⟨1⟩, ⟨2⟩], trail_lim := [0],
    watches := fun _ => [],
    clauses := [Clause.new [-1, 2], Clause.new [-1, -2]] }

/-- C6 witness: conflict analysis on the concrete level-1 conflict
state terminates with a learned clause holding exactly one current-level
literal. -/
theorem get_clause_to_learn_terminates_witness :
    ∃ clause unit, c6State.get_clause_to_learn 1 3 = some (clause, unit) ∧
      unit ∈ clause.literals ∧
      c6State.level unit.var = some c6State.trail_lim.length ∧
      clause.literals.filter
        (fun l => c6State.level l.var = some c6State.trail_lim.length)
        = [unit] := by
  refine get_clause_to_learn_terminates c6State 1 0 3 (by decide) (by decide)
    (by decide) ?_ ?_ (by decide) (by decide) (by decide) ?_
  · intro A B curlit hseg hAne
    have hseg2 : ([⟨1⟩, ⟨2⟩] : List Literal) = A ++ curlit :: B := hseg
    match A with
    | [] => exact absurd rfl hAne
    | [a] =>
        rw [List.cons_append, List.nil_append] at hseg2
        have h1 : (⟨1⟩ : Literal) = a := by
          have := congrArg (fun l => List.getD l 0 (⟨0⟩ : Literal)) hseg2
          simpa using this
        have h2 : (⟨2⟩ : Literal) = curlit := by
          have := congrArg (fun l => List.getD l 1 (⟨0⟩ : Literal)) hseg2
          simpa using this
        rw [← h2]
        decide
    | a :: b :: A3 =>
        have hlen := congrArg List.length hseg2
        simp at hlen
  · intro A B curlit hseg cid hcid x hx hxv
    have hseg2 : ([⟨1⟩, ⟨2⟩] : List Literal) = A ++ curlit :: B := hseg
    match A with
    | [] =>
        rw [List.nil_append] at hseg2
        have h1 : (⟨1⟩ : Literal) = curlit := by
          have := congrArg (fun l => List.getD l 0 (⟨0⟩ : Literal)) hseg2
          simpa using this
        rw [← h1] at hcid
        have : c6State.reason (Literal.var ⟨1⟩) = none := by decide
        rw [this] at hcid
        exact absurd hcid (by simp)
    | [a] =>
        rw [List.cons_append, List.nil_append] at hseg2
        have h1 : (⟨1⟩ : Literal) = a := by
          have := congrArg (fun l => List.getD l 0 (⟨0⟩ : Literal)) hseg2
          simpa using this
        have h2 : (⟨2⟩ : Literal) = curlit := by
          have := congrArg (fun l => List.getD l 1 (⟨0⟩ : Literal)) hseg2
          simpa using this
        rw [← h2] at hcid hxv
        have hr2 : c6State.reason (Literal.var ⟨2⟩) = some 0 := by decide
        rw [hr2] at hcid
        have hcid0 : cid = 0 := by
          simpa using hcid.symm
        rw [hcid0] at hx
        have hlits : (c6State.clauses.getD 0 emptyClause).literals
            = [⟨-1⟩, ⟨2⟩] := by decide
        rw [hlits] at hx
        rw [← h1]
        rcases List.mem_cons.mp hx with hh | hh
        · rw [hh]
          rw [hh] at hxv
          decide
        · have hx2 : x = ⟨2⟩ := by simpa using hh
          rw [hx2] at hxv
          exact absurd rfl hxv
    | a :: b :: A3 =>
        have hlen := congrArg List.length hseg2
        simp at hlen
  · intro v
    by_cases h1 : v = 1
    · subst h1
      simp [c6State, Literal.var]
    · by_cases h2 : v = 2
      · subst h2
        simp [c6State, Literal.var]
      · simp [c6State, Literal.var, h1, h2]

end Rustasata

namespace Rustasata

/-- C2: conflict analysis returns None exactly for a conflict at
decision level 0 — in which case the solver loop stops with Unsat — and
at any level > 0, under the reachable-state invariants of the analysis
loop, it returns a learned clause, an asserting literal and a backjump
level, after which the solver loop backtracks, learns the clause and
continues the search. -/
theorem analyse_conflict_spec :
    (∀ (s : Solver) (conflict : ClauseId) (fuel : Nat),
      s.trail_lim.length = 0 →
      s.analyse_conflict conflict fuel = some none) ∧
    (∀ (s : Solver) (conflict : ClauseId) (cut fuel : Nat),
      s.trail_lim.getLast? = some cut →
      (s.trail.drop cut).length < fuel →
      ((s.trail.drop cut).map Literal.var).Nodup →
      (∀ (A B : List Literal) (curlit : Literal),
        s.trail.drop cut = A ++ curlit :: B → A ≠ [] →
        (s.reason curlit.var).isSome = true) →
      (∀ (A B : List Literal) (curlit : Literal),
        s.trail.drop cut = A ++ curlit :: B →
        ∀ cid, s.reason curlit.var = some cid →
        ∀ x ∈ (s.clauses.getD cid emptyClause).literals,
          x.var ≠ curlit.var →
          x.falsified_by (s.assigns x.var) = true ∧
          (x.var ∈ (s.trail.drop cut).map Literal.var →
            x.var ∈ A.map Literal.var)) →
      (s.clauses.getD conflict emptyClause).literals.Nodup →
      (∀ x ∈ (s.clauses.getD conflict emptyClause).literals,
        x.falsified_by (s.assigns x.var) = true) →
      (∃ x ∈ (s.clauses.getD conflict emptyClause).literals,
        x.var ∈ (s.trail.drop cut).map Literal.var) →
      (∀ v, s.level v = some s.trail_lim.length ↔
        v ∈ (s.trail.drop cut).map Literal.var) →
      ∃ clause unit lvl,
        s.analyse_conflict conflict fuel = some (some (clause, unit, lvl))) ∧
    (∀ (fuel : Nat) (s s1 : Solver) (conflict : ClauseId),
      unitPropagate (fuel + 1) s = some (s1, some conflict) →
      Solver.analyse_conflict { s1 with conflicts := s1.conflicts + 1 }
        conflict (fuel + 1) = some none →
      conflictLoop (fuel + 1) s = some (Sum.inr SolverResult.Unsat)) ∧
    (∀ (fuel : Nat) (s s1 s3 : Solver) (conflict : ClauseId)
        (clause : Clause) (unit : Literal) (lvl : Nat),
      unitPropagate (fuel + 1) s = some (s1, some conflict) →
      Solver.analyse_conflict { s1 with conflicts := s1.conflicts + 1 }
        conflict (fuel + 1) = some (some (clause, unit, lvl)) →
      (Solver.backtrack { s1 with conflicts := s1.conflicts + 1 }
        lvl).add_learned_clause clause unit = Except.ok s3 →
      conflictLoop (fuel + 1) s = conflictLoop fuel s3) := by
  refine ⟨?_, ?_, ?_, ?_⟩
  · intro s conflict fuel h0
    unfold Solver.analyse_conflict
    rw [if_pos h0]
  · intro s conflict cut fuel hcut hfuel hdist hreas hante hnd hfal
      hmatch hlvl
    have hlen : ¬ s.trail_lim.length = 0 := by
      intro h0
      rw [List.length_eq_zero] at h0
      rw [h0] at hcut
      exact absurd hcut (by simp)
    obtain ⟨clause, unit, hg, _, _, _⟩ :=
      getClauseToLearnAux s conflict cut fuel hcut hfuel hdist hreas hante
        hnd hfal hmatch hlvl
    refine ⟨clause, unit, s.get_backtrack_level clause, ?_⟩
    unfold Solver.analyse_conflict
    rw [if_neg hlen, hg]
  · intro fuel s s1 conflict hup hana
    calc conflictLoop (fuel + 1) s
        = (match unitPropagate (fuel + 1) s with
          | none => none
          | some (s1x, none) => some (Sum.inl s1x)
          | some (s1x, some conflictx) =>
              match Solver.analyse_conflict
                  { s1x with conflicts := s1x.conflicts + 1 } conflictx
                  (fuel + 1) with
              | none => none
              | some none => some (Sum.inr SolverResult.Unsat)
              | some (some (clausex, unitx, lvlx)) =>
                  match (Solver.backtrack
                      { s1x with conflicts := s1x.conflicts + 1 }
                      lvlx).add_learned_clause clausex unitx with
                  | Except.error _ => none
                  | Except.ok s3x => conflictLoop fuel s3x) := rfl
      _ = (match Solver.analyse_conflict
              { s1 with conflicts := s1.conflicts + 1 } conflict
              (fuel + 1) with
          | none => none
          | some none => some (Sum.inr SolverResult.Unsat)
          | some (some (clausex, unitx, lvlx)) =>
              match (Solver.backtrack
                  { s1 with conflicts := s1.conflicts + 1 }
                  lvlx).add_learned_clause clausex unitx with
              | Except.error _ => none
              | Except.ok s3x => conflictLoop fuel s3x) := by rw [hup]
      _ = some (Sum.inr SolverResult.Unsat) := by rw [hana]
  · intro fuel s s1 s3 conflict clause unit lvl hup hana hadd
    calc conflictLoop (fuel + 1) s
        = (match unitPropagate (fuel + 1) s with
          | none => none
          | some (s1x, none) => some (Sum.inl s1x)
          | some (s1x, some conflictx) =>
              match Solver.analyse_conflict
                  { s1x with conflicts := s1x.conflicts + 1 } conflictx
                  (fuel + 1) with
              | none => none
              | some none => some (Sum.inr SolverResult.Unsat)
              | some (some (clausex, unitx, lvlx)) =>
                  match (Solver.backtrack
                      { s1x with conflicts := s1x.conflicts + 1 }
                      lvlx).add_learned_clause clausex unitx with
                  | Except.error _ => none
                  | Except.ok s3x => conflictLoop fuel s3x) := rfl
      _ = (match Solver.analyse_conflict
              { s1 with conflicts := s1.conflicts + 1 } conflict
              (fuel + 1) with
          | none => none
          | some none => some (Sum.inr SolverResult.Unsat)
          | some (some (clausex, unitx, lvlx)) =>
              match (Solver.backtrack
                  { s1 with conflicts := s1.conflicts + 1 }
                  lvlx).add_learned_clause clausex unitx with
              | Except.error _ => none
              | Except.ok s3x => conflictLoop fuel s3x) := by rw [hup]
      _ = (match (Solver.backtrack
              { s1 with conflicts := s1.conflicts + 1 }
              lvl).add_learned_clause clause unit with
          | Except.error _ => none
          | Except.ok s3x => conflictLoop fuel s3x) := by rw [hana]
      _ = conflictLoop fuel s3 := by rw [hadd]

end Rustasata
